import Mathlib

/-!
# Verification of the pullquote marker engine

Shallow embedding of the core of `pullquote` (marker scanning, option
parsing, content resolution and rewriting, file pipeline), translated from
`src/pullquote.go`, together with proofs and refutations of the specified
properties.

Conventions:
* Go byte strings are modelled as `String` / `List Char` (all inputs of
  interest are ASCII, where bytes and characters coincide).
* Go `int` is modelled as `Int` where its signedness matters, `Nat` for
  indices that are provably non-negative.
* Compiled regular expressions (`regexp.Regexp`) are modelled as opaque
  matchers: a `Pattern` bundles the pattern source text with a line
  predicate `String → Bool`.  For concrete witnesses the predicates are
  instantiated with literal-substring matchers, which agrees with Go regexp
  semantics on metacharacter-free patterns.
* `fmt.Errorf`/`errors.New` error values are modelled as `String`s,
  fallible functions return `Except String α`.
-/

namespace Pullquote

/-- Characters Go's `unicode.IsSpace` treats as space (Latin-1 range). -/
def goIsSpace (c : Char) : Bool :=
  c = ' ' || c = '\t' || c = '\n' || c = Char.ofNat 11 || c = Char.ofNat 12 ||
    c = '\r' || c = Char.ofNat 0x85 || c = Char.ofNat 0xA0

/-- `bytes.Index`: index of the first occurrence of `n` in a list, if any. -/
def firstIdxOf (n : List Char) : List Char → Option Nat
  | [] => if n.isEmpty then some 0 else none
  | c :: t => if n.isPrefixOf (c :: t) then some 0 else (firstIdxOf n t).map (· + 1)

/-- `bytes.LastIndex`: index of the last occurrence of `n` in a list, if any. -/
def lastIdxOf (n : List Char) : List Char → Option Nat
  | [] => if n.isEmpty then some 0 else none
  | c :: t =>
    match lastIdxOf n t with
    | some i => some (i + 1)
    | none => if n.isPrefixOf (c :: t) then some 0 else none

/-- `strings.Contains` on the character lists. -/
def containsSub (hay n : List Char) : Bool :=
  (firstIdxOf n hay).isSome

/-- `strings.Contains` on strings. -/
def strContains (hay n : String) : Bool :=
  containsSub hay.data n.data

/-- `strings.TrimRight(s, "\r\n")`: drop trailing CR/LF characters. -/
def trimRightCRLF (s : String) : String :=
  String.mk ((s.data.reverse.dropWhile fun c => c = '\r' || c = '\n').reverse)

/-- The newline-including line splitter (`newlineIncludingScanner`): each
token is a line including its trailing `'\n'`; a final unterminated line is
returned without one; an empty input yields no lines. -/
def splitLinesKeepEolAux (acc : List Char) : List Char → List (List Char)
  | [] => if acc.isEmpty then [] else [acc.reverse]
  | c :: t =>
    if c = '\n' then (acc.reverse ++ ['\n']) :: splitLinesKeepEolAux [] t
    else splitLinesKeepEolAux (c :: acc) t

/-- String version of the newline-including splitter. -/
def splitLinesKeepEol (s : String) : List String :=
  (splitLinesKeepEolAux [] s.data).map String.mk

/-- A compiled regular expression, as an opaque line matcher: `src` is the
pattern text (what `%q` prints), `isMatch` is `(*Regexp).MatchString`. -/
structure Pattern where
  src : String
  isMatch : String → Bool

/-- Go `%q` of a pattern without escape-worthy characters: quoted text. -/
def quoteStr (s : String) : String :=
  "\"" ++ s ++ "\""

/-! ## `expandSrcPullQuotes` (pull-kind content resolution) -/

/-- The pull-kind fields of a marker that `expandSrcPullQuotes` consumes:
start/end patterns and the raw `endcount` value (0 when unset). -/
structure PullPat where
  startPat : Pattern
  endPat : Pattern
  endCount : Int

/-- Per-marker accumulation state of `expandSrcPullQuotes`: the `state`
struct of the Go source (`*bytes.Buffer` is `none` until the start pattern
matched; `result` is set once the end count is exhausted). -/
structure SrcState where
  buffer : Option String
  result : Option String
  endMatchRemaining : Int

/-- Initial state: `endCountRem := 1; if pq.endCount != 0 { endCountRem = pq.endCount }`. -/
def initSrcState (pq : PullPat) : SrcState :=
  { buffer := none, result := none,
    endMatchRemaining := if pq.endCount ≠ 0 then pq.endCount else 1 }

/-- One line of the scan loop of `expandSrcPullQuotes`, for one marker's
state: skip if resolved; start accumulating once `start` matches (that line
included); on every `end` match decrement the remaining count, finishing
(with trailing line terminators trimmed) when it reaches zero. -/
def srcStep (pq : PullPat) (s : SrcState) (txt : String) : SrcState :=
  if s.result.isSome then s
  else
    let b? : Option String :=
      match s.buffer with
      | none => if pq.startPat.isMatch txt then some "" else none
      | some b => some b
    match b? with
    | none => s
    | some b =>
      let b := b ++ txt
      if pq.endPat.isMatch txt then
        let rem := s.endMatchRemaining - 1
        if rem = 0 then
          { buffer := none, result := some (trimRightCRLF b), endMatchRemaining := rem }
        else
          { buffer := some b, result := s.result, endMatchRemaining := rem }
      else
        { buffer := some b, result := s.result, endMatchRemaining := s.endMatchRemaining }

/-- One line of the scan loop applied to every in-flight marker state. -/
def srcStepAll (sts : List (PullPat × SrcState)) (txt : String) : List (PullPat × SrcState) :=
  sts.map fun p => (p.1, srcStep p.1 p.2 txt)

/-- The `expanded` struct: resolved content, a primary string plus the
optional Code/Output parts (only ever filled by the Go example extractor). -/
structure Expanded where
  str : String
  parts : List String
deriving DecidableEq, Repr

/-- The result-collection loop at the end of `expandSrcPullQuotes`: each
resolved state contributes its content (`&expanded{String: ...}`, so with
no parts); the first unresolved state aborts with `never matched end` /
`never matched start` (the Go code prints `s.end` in both messages). -/
def collectSrcResults : List (PullPat × SrcState) → Except String (List Expanded)
  | [] => .ok []
  | (pq, s) :: rest =>
    match s.result with
    | some r => (collectSrcResults rest).map (⟨r, []⟩ :: ·)
    | none =>
      if s.buffer.isSome then .error ("never matched end: " ++ quoteStr pq.endPat.src)
      else .error ("never matched start: " ++ quoteStr pq.endPat.src)

/-- `expandSrcPullQuotes`: resolve a batch of pull-kind markers against the
(line-split) contents of their shared source file in one linear scan. -/
def expandSrcPullQuotes (pqs : List PullPat) (lines : List String) : Except String (List Expanded) :=
  collectSrcResults (lines.foldl srcStepAll (pqs.map fun pq => (pq, initSrcState pq)))

/-- The single-marker run of the scan loop (used to state per-marker facts). -/
def srcRun (pq : PullPat) (lines : List String) : SrcState :=
  lines.foldl (srcStep pq) (initSrcState pq)

/-! ### Specification-side description of the captured region (C1) -/

/-- The effective end count: the marker's `endcount`, defaulting to 1 when unset. -/
def effEndCount (pq : PullPat) : Int :=
  if pq.endCount ≠ 0 then pq.endCount else 1

/-- Index of the `n`-th line (1-based `n`) matching pattern `p`, if it exists. -/
def nthMatchIdx (p : Pattern) : Nat → List String → Option Nat
  | _, [] => none
  | n, l :: rest =>
    if p.isMatch l then
      if n ≤ 1 then some 0 else (nthMatchIdx p (n - 1) rest).map (· + 1)
    else
      (nthMatchIdx p n rest).map (· + 1)

/-- Index of the first line matching `p`. -/
def firstMatchIdx (p : Pattern) (lines : List String) : Option Nat :=
  nthMatchIdx p 1 lines

/-- Concatenation of a list of lines (each line keeps its own terminator). -/
def concatLines : List String → String
  | [] => ""
  | l :: ls => l ++ concatLines ls

/-- Specification-side captured content, following the claim's words (not
the code): the region begins at the first line matching `startPattern`
(that line included) and ends at the `N`-th line matching `endPattern`
counted from the start line onward (`N` = `endcount`, default 1), end line
included; trailing line terminators are trimmed from the joined text. -/
def specPullContent (pq : PullPat) (lines : List String) : Option String :=
  (firstMatchIdx pq.startPat lines).bind fun i =>
    (nthMatchIdx pq.endPat (effEndCount pq).toNat (lines.drop i)).map fun k =>
      trimRightCRLF (concatLines ((lines.drop i).take (k + 1)))

/-! ### Lemmas about the pull-quote scan loop -/

theorem strAppendAssoc (a b c : String) : a ++ b ++ c = a ++ (b ++ c) := by
  apply String.ext
  simp [String.data_append, List.append_assoc]

theorem srcStep_absorb (pq : PullPat) (s : SrcState) (txt : String) (h : s.result.isSome) :
    srcStep pq s txt = s := by
  simp [srcStep, h]

theorem foldl_srcStep_absorb (pq : PullPat) (lines : List String) (s : SrcState)
    (h : s.result.isSome) : lines.foldl (srcStep pq) s = s := by
  induction lines with
  | nil => rfl
  | cons l ls ih => rw [List.foldl_cons, srcStep_absorb pq s l h]; exact ih

/-- Accumulation phase: once the start pattern has matched and `b` has been
accumulated, the eventual result is determined by the index of the `n`-th
subsequent end-pattern match. -/
theorem foldl_srcStep_accum (pq : PullPat) :
    ∀ (lines : List String) (b : String) (n : Nat), 1 ≤ n →
    (lines.foldl (srcStep pq) ⟨some b, none, (n : Int)⟩).result
      = (nthMatchIdx pq.endPat n lines).map
          (fun k => trimRightCRLF (b ++ concatLines (lines.take (k + 1)))) := by
  intro lines
  induction lines with
  | nil => intro b n hn; simp [nthMatchIdx]
  | cons l ls ih =>
    intro b n hn
    rw [List.foldl_cons]
    by_cases hm : pq.endPat.isMatch l
    · by_cases h1 : n = 1
      · subst h1
        have hstep : srcStep pq ⟨some b, none, ((1 : Nat) : Int)⟩ l
            = ⟨none, some (trimRightCRLF (b ++ l)), 0⟩ := by
          simp [srcStep, hm]
        rw [hstep, foldl_srcStep_absorb _ _ _ (by simp)]
        simp [nthMatchIdx, hm, concatLines]
      · have hstep : srcStep pq ⟨some b, none, (n : Int)⟩ l
            = ⟨some (b ++ l), none, (n : Int) - 1⟩ := by
          have hrem : ¬((n : Int) - 1 = 0) := by omega
          simp [srcStep, hm, hrem]
        have hcast : (n : Int) - 1 = ((n - 1 : Nat) : Int) := by omega
        rw [hstep, hcast, ih (b ++ l) (n - 1) (by omega)]
        have hn2 : ¬ n ≤ 1 := by omega
        simp only [nthMatchIdx, hm, if_true, if_neg hn2, Option.map_map]
        congr 1
        funext k
        simp [Function.comp, List.take_succ_cons, concatLines, strAppendAssoc]
    · have hstep : srcStep pq ⟨some b, none, (n : Int)⟩ l
          = ⟨some (b ++ l), none, (n : Int)⟩ := by
        simp [srcStep, hm]
      rw [hstep, ih (b ++ l) n hn]
      simp only [nthMatchIdx, hm, Bool.false_eq_true, if_false, Option.map_map]
      congr 1
      funext k
      simp [Function.comp, List.take_succ_cons, concatLines, strAppendAssoc]

/-- Scanning phase: from the initial state, the eventual result is
determined by the first start-pattern match and, from that line on
(inclusive), the `n`-th end-pattern match. -/
theorem foldl_srcStep_scan (pq : PullPat) (n : Nat) (hn : 1 ≤ n) :
    ∀ lines : List String,
    (lines.foldl (srcStep pq) ⟨none, none, (n : Int)⟩).result
      = (firstMatchIdx pq.startPat lines).bind (fun i =>
          (nthMatchIdx pq.endPat n (lines.drop i)).map
            (fun k => trimRightCRLF (concatLines ((lines.drop i).take (k + 1))))) := by
  intro lines
  induction lines with
  | nil => simp [firstMatchIdx, nthMatchIdx]
  | cons l ls ih =>
    rw [List.foldl_cons]
    by_cases hs : pq.startPat.isMatch l
    · have hswap : srcStep pq ⟨none, none, (n : Int)⟩ l
          = srcStep pq ⟨some "", none, (n : Int)⟩ l := by
        simp [srcStep, hs]
      rw [hswap, ← List.foldl_cons, foldl_srcStep_accum pq (l :: ls) "" n hn]
      have hfirst : firstMatchIdx pq.startPat (l :: ls) = some 0 := by
        simp [firstMatchIdx, nthMatchIdx, hs]
      rw [hfirst]
      simp
    · have hstep : srcStep pq ⟨none, none, (n : Int)⟩ l = ⟨none, none, (n : Int)⟩ := by
        simp [srcStep, hs]
      rw [hstep, ih]
      have hfirst : firstMatchIdx pq.startPat (l :: ls)
          = (firstMatchIdx pq.startPat ls).map (· + 1) := by
        simp [firstMatchIdx, nthMatchIdx, hs]
      rw [hfirst]
      cases firstMatchIdx pq.startPat ls with
      | none => rfl
      | some i => simp

/-- The single-marker run computes exactly the claim's captured content. -/
theorem srcRun_result (pq : PullPat) (h0 : 0 ≤ pq.endCount) (lines : List String) :
    (srcRun pq lines).result = specPullContent pq lines := by
  have h1 : (1 : Int) ≤ effEndCount pq := by
    unfold effEndCount; split <;> omega
  have hn : ((effEndCount pq).toNat : Int) = effEndCount pq :=
    Int.toNat_of_nonneg (by omega)
  have hinit : initSrcState pq = ⟨none, none, ((effEndCount pq).toNat : Int)⟩ := by
    simp only [initSrcState, effEndCount] at *
    rw [hn]
  rw [srcRun, hinit, foldl_srcStep_scan pq (effEndCount pq).toNat (by omega) lines,
    specPullContent]

/-- The batched fold runs every marker's state machine independently. -/
theorem foldl_srcStepAll (lines : List String) :
    ∀ sts : List (PullPat × SrcState),
    lines.foldl srcStepAll sts
      = sts.map (fun p => (p.1, lines.foldl (srcStep p.1) p.2)) := by
  induction lines with
  | nil => intro sts; simp
  | cons l ls ih =>
    intro sts
    rw [List.foldl_cons, ih (srcStepAll sts l), srcStepAll, List.map_map]
    rfl

/-- A successful collection returns, in order, each marker's resolved
content, with no Code/Output parts. -/
theorem collectSrcResults_ok :
    ∀ {sts : List (PullPat × SrcState)} {cs : List Expanded},
    collectSrcResults sts = .ok cs →
    ∀ k : Nat, cs.get? k
      = ((sts.get? k).bind fun p => p.2.result).map fun r => (⟨r, []⟩ : Expanded) := by
  intro sts
  induction sts with
  | nil =>
    intro cs h k
    cases h
    simp
  | cons p rest ih =>
    intro cs h k
    match hres : p.2.result with
    | some r =>
      rw [collectSrcResults] at h
      split at h
      next heq =>
        rw [hres] at heq
        cases heq
        cases hrest : collectSrcResults rest with
        | error e => rw [hrest] at h; cases h
        | ok cs2 =>
          rw [hrest] at h
          cases h
          cases k with
          | zero => simp [hres]
          | succ k2 => simpa using ih hrest k2
      next heq => rw [hres] at heq; cases heq
    | none =>
      rw [collectSrcResults] at h
      split at h
      next heq => rw [hres] at heq; cases heq
      next heq => split at h <;> cases h

/-- A successful collection has one result per marker. -/
theorem collectSrcResults_ok_length :
    ∀ {sts : List (PullPat × SrcState)} {cs : List Expanded},
    collectSrcResults sts = .ok cs → cs.length = sts.length := by
  intro sts
  induction sts with
  | nil => intro cs h; cases h; rfl
  | cons p rest ih =>
    intro cs h
    rw [collectSrcResults] at h
    split at h
    next =>
      cases hrest : collectSrcResults rest with
      | error e => rw [hrest] at h; cases h
      | ok cs2 =>
        rw [hrest] at h
        cases h
        simp [ih hrest]
    next => split at h <;> cases h

/-- `expandSrcPullQuotes` is the collection of the independent single-marker runs. -/
theorem expandSrc_eq_runs (pqs : List PullPat) (lines : List String) :
    expandSrcPullQuotes pqs lines
      = collectSrcResults (pqs.map fun pq => (pq, srcRun pq lines)) := by
  rw [expandSrcPullQuotes, foldl_srcStepAll, List.map_map]
  rfl

/-- C1.  For every Pull-kind marker resolved against its source file, the
captured region begins at the first line matching `startPattern` (that line
included) and ends at the `N`-th line matching `endPattern` counted from
the start line onward, where `N` is the marker's `endcount` (default 1
when unset); the end line is included, trailing line terminators are
trimmed from the captured text, and the result is a plain string with no
Code/Output parts. -/
theorem c1_pull_capture_region (pqs : List PullPat) (lines : List String) (cs : List Expanded)
    (hend : ∀ pq ∈ pqs, 0 ≤ pq.endCount)
    (h : expandSrcPullQuotes pqs lines = .ok cs)
    (k : Nat) (hk : k < pqs.length) :
    cs.get? k = (specPullContent (pqs.get ⟨k, hk⟩) lines).map (fun r => (⟨r, []⟩ : Expanded))
      ∧ (specPullContent (pqs.get ⟨k, hk⟩) lines).isSome := by
  rw [expandSrc_eq_runs] at h
  have hget := collectSrcResults_ok h k
  have hlen := collectSrcResults_ok_length h
  have hsts : ((pqs.map fun pq => (pq, srcRun pq lines)).get? k)
      = some (pqs.get ⟨k, hk⟩, srcRun (pqs.get ⟨k, hk⟩) lines) := by
    rw [List.get?_map, List.get?_eq_get hk]
    rfl
  rw [hsts] at hget
  have hrun : (srcRun (pqs.get ⟨k, hk⟩) lines).result
      = specPullContent (pqs.get ⟨k, hk⟩) lines :=
    srcRun_result _ (hend _ (List.get_mem pqs k hk)) lines
  simp only [Option.some_bind] at hget
  rw [hrun] at hget
  refine ⟨hget, ?_⟩
  have hklt : k < cs.length := by
    rw [hlen, List.length_map]; exact hk
  have : (cs.get? k).isSome := by
    rw [List.get?_eq_get hklt]; rfl
  rw [hget] at this
  simpa using this

/-- Literal-substring pattern: on metacharacter-free pattern text, Go's
unanchored `regexp.MatchString` is exactly substring containment. -/
def litPat (s : String) : Pattern :=
  ⟨s, fun l => strContains l s⟩

def linesW1 : List String :=
  ["\n", "func fooBar() \x7b\n", "\t// OK COOL\n", "\x7d\n", "\n", "func fooBaz() \x7b\n",
   "\t// ok\n", "\x7d\n"]

def pqW1 : PullPat := ⟨litPat "func fooBar() \x7b", litPat "\x7d", 2⟩

def csW1 : List Expanded :=
  [⟨"func fooBar() \x7b\n\t// OK COOL\n\x7d\n\nfunc fooBaz() \x7b\n\t// ok\n\x7d", []⟩]

theorem c1_pull_capture_region_witness :
    expandSrcPullQuotes [pqW1] linesW1 = .ok csW1 ∧
    csW1.get? 0 = (specPullContent pqW1 linesW1).map (fun r => (⟨r, []⟩ : Expanded)) := by
  refine ⟨by rfl, ?_⟩
  exact (c1_pull_capture_region [pqW1] linesW1 csW1 (by decide) (by rfl) 0 (by decide)).1

/-- C10.  End-pattern matching is evaluated on the start line itself: if
the first source line matching `startPattern` also matches `endPattern` and
`endcount` is unset or 1, the resolved content is exactly that single line
with trailing line terminators trimmed (and no Code/Output parts). -/
theorem c10_end_match_on_start_line (pq : PullPat) (lines : List String) (i : Nat) (l : String)
    (hcnt : pq.endCount = 0 ∨ pq.endCount = 1)
    (hfirst : firstMatchIdx pq.startPat lines = some i)
    (hl : lines.get? i = some l)
    (hend : pq.endPat.isMatch l) :
    expandSrcPullQuotes [pq] lines = .ok [⟨trimRightCRLF l, []⟩] := by
  have h0 : 0 ≤ pq.endCount := by omega
  have hilt : i < lines.length := by
    by_contra hge
    rw [List.get?_eq_none.2 (by omega)] at hl
    cases hl
  have hdrop : lines.drop i = l :: lines.drop (i + 1) := by
    have := List.drop_eq_get_cons hilt
    rw [this]
    have : lines.get ⟨i, hilt⟩ = l := by
      have := List.get?_eq_get hilt
      rw [this] at hl
      cases hl
      rfl
    rw [this]
  have heff : (effEndCount pq).toNat = 1 := by
    rcases hcnt with h | h <;> simp [effEndCount, h]
  have hspec : specPullContent pq lines = some (trimRightCRLF l) := by
    rw [specPullContent, hfirst, Option.some_bind, heff, hdrop]
    simp only [nthMatchIdx, hend, if_true, le_refl, if_pos]
    simp [concatLines]
  have hres : (srcRun pq lines).result = some (trimRightCRLF l) := by
    rw [srcRun_result pq h0 lines, hspec]
  rw [expandSrc_eq_runs]
  simp [collectSrcResults, hres, Except.map]

def pqW2 : PullPat := ⟨litPat "hi", litPat "hi", 0⟩

theorem c10_end_match_on_start_line_witness :
    expandSrcPullQuotes [pqW2] ["x\n", "hi there\n", "y\n"]
      = .ok [⟨trimRightCRLF "hi there\n", []⟩] :=
  c10_end_match_on_start_line pqW2 ["x\n", "hi there\n", "y\n"] 1 "hi there\n"
    (Or.inl rfl) (by rfl) (by rfl) (by rfl)

/-- C8.  Evidence for the error-message slip: with start pattern `SSS`
matching no line and end pattern `EEE`, resolution fails fatally as the
claim says, but the "never matched start" message quotes the *end* pattern
(`s.end` is printed in both error branches of `expandSrcPullQuotes`); the
"never matched end" case (start pattern `a` matches, `EEE` never does)
correctly quotes the end pattern. -/
theorem c8_never_matched_messages :
    expandSrcPullQuotes [⟨litPat "SSS", litPat "EEE", 0⟩] ["a\n"]
        = .error ("never matched start: " ++ quoteStr "EEE")
      ∧ expandSrcPullQuotes [⟨litPat "a", litPat "EEE", 0⟩] ["a\n"]
        = .error ("never matched end: " ++ quoteStr "EEE") :=
  ⟨rfl, rfl⟩

/-! ## Marker option parsing: `builder`, `setOptions`, `validate` -/

/-- Flag bit `noRealignTabs` (`1 << 1`). -/
def noRealignTabs : Nat := 2

/-- Flag bit `includeGroup` (`1 << 2`). -/
def includeGroup : Nat := 4

/-- The `pullQuote` struct as filled in by parsing.  (`endIdx = none`
models the `idxNoEnd` sentinel; the Go struct's never-written `jsonPath`
field is omitted — the builder stores both `gopath` and `jsonpath` values
in `objPath`.) -/
structure PQ where
  originalTag : String := ""
  quoteType : String := ""
  src : String := ""
  startPat : Option Pattern := none
  endPat : Option Pattern := none
  endCount : Int := 0
  fmt : String := ""
  lang : String := ""
  objPath : String := ""
  flags : Nat := 0
  startIdx : Nat := 0
  endIdx : Option Nat := none

/-- The option `builder`: accumulates fields, the first error, and the set
of keys seen (in first-seen order; Go uses a hash set, but the only
order-sensitive consumer sorts the keys first). -/
structure Builder where
  pq : PQ
  err : Option String := none
  seen : List String := []

/-- `builder.vSetTest`: flag keys must come without `=value`, value keys
with one; returns the builder and whether it is still error-free. -/
def bVSetTest (b : Builder) (k : String) (want got : Bool) : Builder × Bool :=
  let b :=
    if b.err.isNone && want != got then
      { b with err := some (if !want then quoteStr k ++ " does not take a value"
                            else quoteStr k ++ " requires value") }
    else b
  (b, b.err.isNone)

/-- `strconv.Atoi` (range errors ignored: the inputs of interest are small). -/
def goAtoi (s : String) : Except String Int :=
  let digits : List Char → Option Nat := fun cs =>
    if cs.isEmpty then none
    else if cs.all Char.isDigit then
      some (cs.foldl (fun a c => a * 10 + (c.toNat - 48)) 0)
    else none
  let err := "strconv.Atoi: parsing " ++ quoteStr s ++ ": invalid syntax"
  match s.data with
  | '-' :: rest =>
    match digits rest with
    | some n => .ok (-(n : Int))
    | none => .error err
  | '+' :: rest =>
    match digits rest with
    | some n => .ok (n : Int)
    | none => .error err
  | cs =>
    match digits cs with
    | some n => .ok (n : Int)
    | none => .error err

/-- `builder.set`: record one key (with or without a value).  Regular
expression compilation is abstracted as the `compile` parameter. -/
def bSet (compile : String → Except String Pattern) (b : Builder) (k v : String)
    (vSet : Bool) : Builder :=
  if b.err.isSome then b
  else if b.seen.contains k then { b with err := some ("key " ++ k ++ " already seen") }
  else
    let b := { b with seen := b.seen ++ [k] }
    if k = "includegroup" then
      let (b, _) := bVSetTest b k false vSet
      { b with pq := { b.pq with flags := b.pq.flags ||| includeGroup } }
    else if k = "noreformat" then
      let (b, _) := bVSetTest b k false vSet
      { b with pq := { b.pq with flags := b.pq.flags ||| noRealignTabs } }
    else if k = "src" then
      let (b, _) := bVSetTest b k true vSet
      { b with pq := { b.pq with src := v } }
    else if k = "start" then
      let (b, ok) := bVSetTest b k true vSet
      if ok then
        match compile v with
        | .ok p => { b with pq := { b.pq with startPat := some p } }
        | .error e => { b with err := some ("invalid start " ++ quoteStr v ++ ": " ++ e) }
      else b
    else if k = "end" then
      let (b, ok) := bVSetTest b k true vSet
      if ok then
        match compile v with
        | .ok p => { b with pq := { b.pq with endPat := some p } }
        | .error e => { b with err := some ("invalid end " ++ quoteStr v ++ ": " ++ e) }
      else b
    else if k = "endcount" then
      let (b, ok) := bVSetTest b k true vSet
      if ok then
        match goAtoi v with
        | .ok n => { b with pq := { b.pq with endCount := n } }
        | .error e => { b with err := some ("invalid endcount " ++ quoteStr v ++ ": " ++ e) }
      else b
    else if k = "fmt" then { b with pq := { b.pq with fmt := v } }
    else if k = "lang" then { b with pq := { b.pq with lang := v } }
    else if k = "gopath" then { b with pq := { b.pq with objPath := v, quoteType := "go" } }
    else if k = "jsonpath" then { b with pq := { b.pq with objPath := v, quoteType := "json" } }
    else if vSet then
      { b with err := some ("unknown key " ++ quoteStr k ++ " with value " ++ quoteStr v) }
    else { b with err := some ("unknown key " ++ quoteStr k) }

/-- The token loop of `setOptions` with its 3-token window. -/
def setOptionsLoop (compile : String → Except String Pattern) :
    Builder → List String → List String → Builder × List String
  | b, window, [] => (b, window)
  | b, window, t :: rest =>
    if b.err.isSome then (b, window)
    else
      let window := window ++ [t]
      match window with
      | [w0, w1] =>
        if w1 ≠ "=" then setOptionsLoop compile (bSet compile b w0 "" false) [w1] rest
        else setOptionsLoop compile b [w0, w1] rest
      | [w0, _, w2] => setOptionsLoop compile (bSet compile b w0 w2 true) [] rest
      | w => setOptionsLoop compile b w rest

/-- `setOptions`: parse a marker's token stream into the builder.  A `go`
or `json` tag pre-seeds the window with the implicit `gopath`/`jsonpath`
key and an `=`, so that the first token is taken as its value.  `tokErr`
is whether the token scanner ended with an `unterminated token` error. -/
def setOptions (compile : String → Except String Pattern) (pq0 : PQ) (tagType : String)
    (toks : List String) (tokErr : Bool) : Builder :=
  let b0 : Builder := { pq := pq0 }
  let w0 : List String :=
    if tagType = "go" then ["gopath", "="]
    else if tagType = "json" then ["jsonpath", "="]
    else []
  let (b, window) := setOptionsLoop compile b0 w0 toks
  let b := if b.err.isNone && tokErr then { b with err := some "unterminated token" } else b
  match window with
  | [wa] => bSet compile b wa "" false
  | [wa, wb] => bSet compile (bSet compile b wa "" false) wb "" false
  | _ => b

/-- Insertion of a string into a `≤`-sorted list. -/
def insertSorted (s : String) : List String → List String
  | [] => [s]
  | t :: ts => if s ≤ t then s :: t :: ts else t :: insertSorted s ts

/-- `sort.Strings`. -/
def sortStrs : List String → List String
  | [] => []
  | s :: ss => insertSorted s (sortStrs ss)

/-- `strings.Join(keys, ", ")`. -/
def joinComma : List String → String
  | [] => ""
  | [s] => s
  | s :: rest => s ++ ", " ++ joinComma rest

/-- `checkRemaining`: leftover keys are reported sorted. -/
def checkRemaining (seen : List String) : Option String :=
  if seen.isEmpty then none
  else some ("invalid keys: " ++ joinComma (sortStrs seen))

/-- `validate`: check `fmt`, apply kind-specific defaults, enforce the
per-kind key sets (required keys checked in order `src`, `start`, `end`). -/
def validate (pq : PQ) (seen : List String) : Except String PQ :=
  if pq.fmt ≠ "" && !(pq.fmt = "blockquote" || pq.fmt = "codefence" || pq.fmt = "example" || pq.fmt = "none") then
    .error "fmt must be example, codefence, blockquote, or none"
  else
    let seen := seen.filter fun k => !(k == "fmt" || k == "lang")
    if pq.quoteType = "json" then
      let pq := if pq.fmt = "" then { pq with fmt := "codefence", lang := "json" } else pq
      let seen := seen.filter fun k => !(k == "jsonpath" || k == "noreformat")
      match checkRemaining seen with
      | some e => .error ("jsonquote: " ++ e)
      | none => .ok pq
    else if pq.quoteType = "go" then
      let pq :=
        if pq.fmt = "" then
          let pq := { pq with fmt := "codefence", lang := "go" }
          if strContains pq.objPath "#Example" then { pq with fmt := "example" } else pq
        else pq
      let seen := seen.filter fun k => !(k == "gopath" || k == "noreformat" || k == "includegroup")
      match checkRemaining seen with
      | some e => .error ("goquote: " ++ e)
      | none => .ok pq
    else
      let seen := seen.filter fun k => !(k == "endcount")
      if !(seen.contains "src") then .error (quoteStr "src" ++ " cannot be unset")
      else if !(seen.contains "start") then .error (quoteStr "start" ++ " cannot be unset")
      else if !(seen.contains "end") then .error (quoteStr "end" ++ " cannot be unset")
      else
        let seen := seen.filter fun k => !(k == "src" || k == "start" || k == "end")
        match checkRemaining seen with
        | some e => .error ("pullquote: " ++ e)
        | none => .ok pq

/-- The per-marker tail of `readPullQuotes`: build the marker from its tag
type and option tokens, then validate it. -/
def parseMarkerOpts (compile : String → Except String Pattern) (tagType : String)
    (toks : List String) (tokErr : Bool) : Except String PQ :=
  let b := setOptions compile ({ originalTag := tagType } : PQ) tagType toks tokErr
  match b.err with
  | some e => .error e
  | none => validate b.pq b.seen

/-- The `compile` instantiation used on metacharacter-free patterns. -/
def litCompile (s : String) : Except String Pattern :=
  .ok (litPat s)

/-- C5 (counterexample).  The spelling `<!-- goquote gopath=pkg#Symbol -->`
does not parse: the pre-seeded window consumes the literal word `gopath` as
the implicit key's value and the following `=` is then rejected, while the
positional form parses fine. -/
theorem c5_goquote_gopath_long_form_rejected :
    parseMarkerOpts litCompile "go" ["gopath", "=", "pkg#Symbol"] false
        = .error ("unknown key " ++ quoteStr "=")
      ∧ (parseMarkerOpts litCompile "go" ["pkg#Symbol"] false).isOk = true :=
  ⟨rfl, rfl⟩

/-- C5 (amended).  The positional short form `<!-- goquote OBJPATH -->` is
equivalent to the long form spelled with the generic tag,
`<!-- pullquote gopath=OBJPATH -->`: both parse without error and yield
identical configurations (same `objPath`, same kind `quoteType = "go"`,
same options) — only the recorded tag name differs. -/
theorem c5_goquote_positional_eq_pullquote_gopath
    (compile : String → Except String Pattern) (p : String) :
    parseMarkerOpts compile "go" [p] false
        = (parseMarkerOpts compile "pull" ["gopath", "=", p] false).map
            (fun pq => { pq with originalTag := "go" })
      ∧ (parseMarkerOpts compile "go" [p] false).isOk = true := by
  by_cases h : strContains p "#Example" <;>
    simp [parseMarkerOpts, setOptions, setOptionsLoop, bSet, bVSetTest, validate,
      checkRemaining, h, Except.isOk, Except.toBool, Except.map]

/-- C9 (counterexample).  A Go-kind marker whose symbol name `MyExample`
contains the substring `Example` (but does not start with it) defaults to
`codefence`, not to the Example format: the code tests for the substring
`#Example` in the whole object path, not `Example` in the symbol name. -/
theorem c9_example_substring_counterexample :
    (validate { originalTag := "go", quoteType := "go", objPath := "p#MyExample" }
        ["gopath"]).map PQ.fmt = .ok "codefence"
      ∧ strContains "MyExample" "Example" = true :=
  ⟨rfl, rfl⟩

/-- C9 (amended).  With no explicit `fmt`, validation defaults a Go-kind
marker to CodeFence with language `go`, switching to Example format exactly
when the object path contains the substring `#Example` (i.e. the symbol
name begins with `Example`); a Json-kind marker defaults to CodeFence with
language `json`. -/
theorem c9_kind_format_defaults (pq pq2 : PQ) (seen : List String)
    (h : validate pq seen = .ok pq2) :
    (pq.quoteType = "go" → pq.fmt = "" →
        pq2.fmt = (if strContains pq.objPath "#Example" then "example" else "codefence")
          ∧ pq2.lang = "go")
      ∧ (pq.quoteType = "json" → pq.fmt = "" → pq2.fmt = "codefence" ∧ pq2.lang = "json") := by
  constructor
  · intro hq hf
    rw [validate] at h
    rw [hf] at h
    simp only [hq] at h
    simp only [if_true, if_false] at h
    split at h <;> simp_all
    split at h
    · cases h
    · cases h
      by_cases hex : strContains pq.objPath "#Example" <;> simp [hex]
  · intro hq hf
    rw [validate] at h
    rw [hf] at h
    simp only [hq] at h
    simp only [if_true, if_false] at h
    split at h <;> simp_all
    split at h
    · cases h
    · cases h
      simp

/-! ## `htmlCommentScanner` (marker-comment scanning, fence skipping) -/

/-- The backtick fence-opening delimiter `"\n```"` searched for by the scanner. -/
def tickDelim : List Char := "\n```".data

/-- The tilde fence-opening delimiter `"\n~~~"`. -/
def tildeDelim : List Char := "\n~~~".data

/-- Closing half of `detectCodeFence`: given the opening delimiter's index,
search for the next same delimiter after it; returns the Go pair
`(start, end)` with `end` just past the closing delimiter (or absent). -/
def fenceClose (data : List Char) (start : Nat) (delim : List Char) : Nat × Option Nat :=
  match firstIdxOf delim (data.drop (start + delim.length)) with
  | none => (start, none)
  | some e => (start, some (start + e + delim.length * 2))

/-- `detectCodeFence`: the earliest `"\n```"` / `"\n~~~"` opening in `data`
(ties impossible), with its closing position when the same delimiter
occurs again. `none` models Go's `(-1, -1)`. -/
def detectCodeFence (data : List Char) : Option (Nat × Option Nat) :=
  match firstIdxOf tickDelim data, firstIdxOf tildeDelim data with
  | none, none => none
  | some ts, none => some (fenceClose data ts tickDelim)
  | none, some tl => some (fenceClose data tl tildeDelim)
  | some ts, some tl =>
    if tl < ts then some (fenceClose data tl tildeDelim)
    else some (fenceClose data ts tickDelim)

/-- `detectComment`: the first `-->` at a positive index, paired with the
last `<!--` before it; otherwise a (possibly absent) bare `<!--` opening
with no close. -/
def detectComment (data : List Char) : Option Nat × Option Nat :=
  match firstIdxOf "-->".data data with
  | some e =>
    if 0 < e then (lastIdxOf "<!--".data (data.take e), some (e + 3))
    else (firstIdxOf "<!--".data data, none)
  | none => (firstIdxOf "<!--".data data, none)

theorem detectCodeFence_nil : detectCodeFence [] = none := by
  simp [detectCodeFence, tickDelim, tildeDelim, firstIdxOf]

/-- A complete fence reported by `detectCodeFence` has a positive end
offset, bounded by the data length, past the start. -/
theorem detectCodeFence_close_bounds {d : List Char} {s e : Nat}
    (h : detectCodeFence d = some (s, some e)) :
    8 ≤ e ∧ e ≤ d.length ∧ s + 4 ≤ e := by
  have hfb : ∀ (n h' : List Char) (i : Nat), firstIdxOf n h' = some i →
      i + n.length ≤ h'.length := by
    intro n h'
    induction h' with
    | nil =>
      intro i hi
      by_cases hn : n.isEmpty
      · have : n = [] := by cases n <;> simp_all [List.isEmpty]
        simp [firstIdxOf, hn] at hi
        subst this
        omega
      · simp [firstIdxOf, hn] at hi
    | cons c t ih =>
      intro i hi
      rw [firstIdxOf] at hi
      split at hi
      next hp =>
        cases hi
        have := List.isPrefixOf_iff_prefix.1 hp
        simpa using this.length_le
      next =>
        match hrec : firstIdxOf n t with
        | none => rw [hrec] at hi; cases hi
        | some j =>
          rw [hrec] at hi
          cases hi
          have := ih j hrec
          simp
          omega
  have hfc : ∀ (st : Nat) (delim : List Char), delim.length = 4 →
      firstIdxOf delim d = some st →
      fenceClose d st delim = (s, some e) →
      8 ≤ e ∧ e ≤ d.length ∧ s + 4 ≤ e := by
    intro st delim hdl hfst hcl
    rw [fenceClose] at hcl
    match hin : firstIdxOf delim (d.drop (st + delim.length)) with
    | none => rw [hin] at hcl; cases hcl
    | some e2 =>
      rw [hin] at hcl
      cases hcl
      have h1 := hfb _ _ _ hin
      have h2 := hfb _ _ _ hfst
      rw [List.length_drop] at h1
      refine ⟨by omega, by omega, by omega⟩
  cases hts : firstIdxOf tickDelim d with
  | none =>
    cases htl : firstIdxOf tildeDelim d with
    | none => simp only [detectCodeFence, hts, htl] at h; cases h
    | some tl =>
      simp only [detectCodeFence, hts, htl] at h
      exact hfc tl tildeDelim rfl htl (Option.some.inj h)
  | some ts =>
    cases htl : firstIdxOf tildeDelim d with
    | none =>
      simp only [detectCodeFence, hts, htl] at h
      exact hfc ts tickDelim rfl hts (Option.some.inj h)
    | some tl =>
      simp only [detectCodeFence, hts, htl] at h
      split at h
      · exact hfc tl tildeDelim rfl htl (Option.some.inj h)
      · exact hfc ts tickDelim rfl hts (Option.some.inj h)

/-- The split function of `htmlCommentScanner`, starting at internal
offset `i`: skip complete code fences (yielding any complete comment lying
before each), then look for a complete comment before the next fence
opening (or anywhere if none); returns `(advance, token?)` where the token
carries its start offset and text. -/
def htmlSplitLoop (orig : List Char) (i : Nat) : Nat × Option (Nat × List Char) :=
  match h : detectCodeFence (orig.drop i) with
  | some (cfStart, some cfEnd) =>
    match detectComment ((orig.drop i).take cfStart) with
    | (some cmStart, some cmEnd) =>
      (i + cmEnd, some (i + cmStart, ((orig.drop i).drop cmStart).take (cmEnd - cmStart)))
    | _ => htmlSplitLoop orig (i + cfEnd)
  | some (cfStart, none) =>
    match detectComment ((orig.drop i).take cfStart) with
    | (some cmStart, some cmEnd) =>
      (i + cmEnd, some (i + cmStart, ((orig.drop i).drop cmStart).take (cmEnd - cmStart)))
    | _ => (i + cfStart, none)
  | none =>
    match detectComment (orig.drop i) with
    | (some cmStart, some cmEnd) =>
      (i + cmEnd, some (i + cmStart, ((orig.drop i).drop cmStart).take (cmEnd - cmStart)))
    | _ => (orig.length, none)
termination_by orig.length - i
decreasing_by
  have hb := detectCodeFence_close_bounds h
  rw [List.length_drop] at hb
  have hne : orig.drop i ≠ [] := by
    intro hnil
    rw [hnil, detectCodeFence_nil] at h
    cases h
  have : i < orig.length := by
    by_contra hge
    exact hne (List.drop_eq_nil_of_le (by omega))
  omega

theorem htmlSplitLoop_nil (i : Nat) : htmlSplitLoop [] i = (0, none) := by
  rw [htmlSplitLoop]
  have hd : List.drop i ([] : List Char) = [] := List.drop_nil
  split
  next h => rw [hd, detectCodeFence_nil] at h; cases h
  next h => rw [hd, detectCodeFence_nil] at h; cases h
  next => rw [hd]; simp [detectComment, firstIdxOf]

/-- The scanner driver (`bufio.Scanner` with the split function above, the
whole input buffered): repeatedly apply the split function, collecting the
yielded comments with their absolute start offsets; stop when the split
makes no progress at end of input.  (On every reachable trace a yielded
token comes with a positive advance.) -/
def scanHtmlComments (data : List Char) : List (Nat × List Char) :=
  match hs : htmlSplitLoop data 0 with
  | (adv, some (st, tok)) =>
    (st, tok) ::
      (if h : adv = 0 then []
       else (scanHtmlComments (data.drop adv)).map fun pr => (adv + pr.1, pr.2))
  | (adv, none) =>
    if h : adv = 0 then []
    else (scanHtmlComments (data.drop adv)).map fun pr => (adv + pr.1, pr.2)
termination_by data.length
decreasing_by
  all_goals {
    have hne : data ≠ [] := by
      intro hnil
      rw [hnil, htmlSplitLoop_nil] at hs
      cases hs <;> exact h rfl
    have : 0 < data.length := by
      cases data with
      | nil => exact absurd rfl hne
      | cons c t => simp
    simp [List.length_drop]
    omega
  }

/-! ### Substring-occurrence lemmas for the fence-skip proof -/

/-- `n` occurs in `d` at index `i`. -/
def occursAt (n d : List Char) (i : Nat) : Bool :=
  n.isPrefixOf (d.drop i)

theorem firstIdxOf_some_iff {n h : List Char} (hne : n ≠ []) {i : Nat} :
    firstIdxOf n h = some i
      ↔ (n.isPrefixOf (h.drop i) = true ∧ ∀ j, j < i → ¬ n.isPrefixOf (h.drop j) = true) := by
  induction h generalizing i with
  | nil =>
    have hemp : n.isEmpty = false := by cases n with
      | nil => exact absurd rfl hne
      | cons a t => rfl
    simp only [firstIdxOf, hemp, if_false]
    constructor
    · intro hcon; cases hcon
    · intro ⟨hp, _⟩
      rw [List.drop_nil] at hp
      cases n with
      | nil => exact absurd rfl hne
      | cons a t => cases hp
  | cons c t ih =>
    rw [firstIdxOf]
    by_cases hp : n.isPrefixOf (c :: t) = true
    · rw [if_pos hp]
      constructor
      · intro hsome
        cases hsome
        exact ⟨by simpa using hp, by omega⟩
      · intro ⟨_, hmin⟩
        by_cases hi : i = 0
        · subst hi; rfl
        · exact absurd (by simpa using hp) (hmin 0 (by omega))
    · rw [if_neg hp]
      cases i with
      | zero =>
        simp only [List.drop_zero]
        constructor
        · intro hcon
          cases hrec : firstIdxOf n t with
          | none => rw [hrec] at hcon; cases hcon
          | some j => rw [hrec] at hcon; simp at hcon
        · intro ⟨hp0, _⟩
          exact absurd hp0 hp
      | succ i2 =>
        constructor
        · intro hcon
          cases hrec : firstIdxOf n t with
          | none => rw [hrec] at hcon; cases hcon
          | some j =>
            rw [hrec] at hcon
            have hji : j = i2 := by simpa using hcon
            subst hji
            have := (ih (i := j)).1 hrec
            refine ⟨by simpa using this.1, ?_⟩
            intro j2 hj2
            cases j2 with
            | zero => rw [List.drop_zero]; exact hp
            | succ j3 =>
              have := this.2 j3 (by omega)
              simpa using this
        · intro ⟨hpi, hmin⟩
          have : firstIdxOf n t = some i2 := by
            apply (ih (i := i2)).2
            refine ⟨by simpa using hpi, ?_⟩
            intro j hj
            have := hmin (j + 1) (by omega)
            simpa using this
          rw [this]
          rfl

theorem firstIdxOf_none_iff {n h : List Char} (hne : n ≠ []) :
    firstIdxOf n h = none ↔ ∀ j, ¬ n.isPrefixOf (h.drop j) = true := by
  constructor
  · intro hnone j hp
    cases hfi : firstIdxOf n h with
    | some k => rw [hfi] at hnone; cases hnone
    | none =>
      clear hnone
      induction h generalizing j with
      | nil =>
        rw [List.drop_nil] at hp
        cases n with
        | nil => exact hne rfl
        | cons a t => cases hp
      | cons c t ih =>
        rw [firstIdxOf] at hfi
        split at hfi
        next => cases hfi
        next hnp =>
          cases j with
          | zero => exact hnp (by simpa using hp)
          | succ j2 =>
            cases hrec : firstIdxOf n t with
            | some k => rw [hrec] at hfi; cases hfi
            | none => exact ih j2 (by simpa using hp) hrec
  · intro hall
    cases hfi : firstIdxOf n h with
    | none => rfl
    | some k =>
      have := (firstIdxOf_some_iff hne).1 hfi
      exact absurd this.1 (hall k)

theorem lastIdxOf_some_prefix {n h : List Char} {s : Nat} (hl : lastIdxOf n h = some s) :
    n.isPrefixOf (h.drop s) = true := by
  induction h generalizing s with
  | nil =>
    rw [lastIdxOf] at hl
    split at hl
    next he =>
      cases hl
      cases n with
      | nil => rfl
      | cons a t => simp [List.isEmpty] at he
    next => cases hl
  | cons c t ih =>
    rw [lastIdxOf] at hl
    split at hl
    next i hrec =>
      cases hl
      simpa using ih hrec
    next hrec =>
      split at hl
      next hp => cases hl; simpa using hp
      next => cases hl

/-- A prefix occurrence implies the obvious length bound. -/
theorem isPrefixOf_drop_length {n d : List Char} {i : Nat}
    (hp : n.isPrefixOf (d.drop i) = true) (hne : n ≠ []) : i + n.length ≤ d.length := by
  have hpre := List.isPrefixOf_iff_prefix.1 hp
  have h1 : n.length ≤ (d.drop i).length := hpre.length_le
  rw [List.length_drop] at h1
  by_cases hi : i ≤ d.length
  · omega
  · rw [List.drop_eq_nil_of_le (by omega)] at hp
    cases n with
    | nil => exact absurd rfl hne
    | cons a t => cases hp

/-- The two fence delimiters cannot occur at the same index. -/
theorem tick_tilde_clash {d : List Char} {i : Nat}
    (h1 : occursAt tickDelim d i = true) (h2 : occursAt tildeDelim d i = true) : False := by
  rw [occursAt] at h1 h2
  have p1 := List.isPrefixOf_iff_prefix.1 h1
  have p2 := List.isPrefixOf_iff_prefix.1 h2
  obtain ⟨t1, e1⟩ := p1
  obtain ⟨t2, e2⟩ := p2
  have := e1.trans e2.symm
  simp [tickDelim, tildeDelim] at this

theorem drop_drop_add (d : List Char) (a b : Nat) : (d.drop a).drop b = d.drop (a + b) := by
  rw [List.drop_drop, Nat.add_comm]

/-- Whether `detectComment` reported a complete comment. -/
def isCompleteComment : Option Nat × Option Nat → Bool
  | (some _, some _) => true
  | _ => false

theorem isCompleteComment_eq_true {r : Option Nat × Option Nat}
    (h : isCompleteComment r = true) : ∃ s e, r = (some s, some e) := by
  match r with
  | (some s, some e) => exact ⟨s, e, rfl⟩
  | (some _, none) => cases h
  | (none, _) => cases h

theorem htmlSplitLoop_step_fence_comment {orig : List Char} {i cfStart cfEnd s e : Nat}
    (hcf : detectCodeFence (orig.drop i) = some (cfStart, some cfEnd))
    (hdc : detectComment ((orig.drop i).take cfStart) = (some s, some e)) :
    htmlSplitLoop orig i = (i + e, some (i + s, ((orig.drop i).drop s).take (e - s))) := by
  rw [htmlSplitLoop]
  split
  next cfStart2 cfEnd2 h2 =>
    rw [hcf] at h2
    obtain ⟨rfl, rfl⟩ : cfStart = cfStart2 ∧ cfEnd = cfEnd2 := by
      simpa using h2
    rw [hdc]
  next cfStart2 h2 => rw [hcf] at h2; simp at h2
  next h2 => rw [hcf] at h2; simp at h2

theorem htmlSplitLoop_step_fence_skip {orig : List Char} {i cfStart cfEnd : Nat}
    (hcf : detectCodeFence (orig.drop i) = some (cfStart, some cfEnd))
    (hdc : isCompleteComment (detectComment ((orig.drop i).take cfStart)) = false) :
    htmlSplitLoop orig i = htmlSplitLoop orig (i + cfEnd) := by
  rw [htmlSplitLoop]
  split
  next cfStart2 cfEnd2 h2 =>
    rw [hcf] at h2
    obtain ⟨rfl, rfl⟩ : cfStart = cfStart2 ∧ cfEnd = cfEnd2 := by
      simpa using h2
    split
    next hdc2 => rw [hdc2] at hdc; cases hdc
    next => rfl
  next cfStart2 h2 => rw [hcf] at h2; simp at h2
  next h2 => rw [hcf] at h2; simp at h2

theorem htmlSplitLoop_step_open_comment {orig : List Char} {i cfStart s e : Nat}
    (hcf : detectCodeFence (orig.drop i) = some (cfStart, none))
    (hdc : detectComment ((orig.drop i).take cfStart) = (some s, some e)) :
    htmlSplitLoop orig i = (i + e, some (i + s, ((orig.drop i).drop s).take (e - s))) := by
  rw [htmlSplitLoop]
  split
  next cfStart2 cfEnd2 h2 => rw [hcf] at h2; simp at h2
  next cfStart2 h2 =>
    rw [hcf] at h2
    obtain rfl : cfStart = cfStart2 := by simpa using h2
    rw [hdc]
  next h2 => rw [hcf] at h2; simp at h2

theorem htmlSplitLoop_step_open_skip {orig : List Char} {i cfStart : Nat}
    (hcf : detectCodeFence (orig.drop i) = some (cfStart, none))
    (hdc : isCompleteComment (detectComment ((orig.drop i).take cfStart)) = false) :
    htmlSplitLoop orig i = (i + cfStart, none) := by
  rw [htmlSplitLoop]
  split
  next cfStart2 cfEnd2 h2 => rw [hcf] at h2; simp at h2
  next cfStart2 h2 =>
    rw [hcf] at h2
    obtain rfl : cfStart = cfStart2 := by simpa using h2
    split
    next hdc2 => rw [hdc2] at hdc; cases hdc
    next => rfl
  next h2 => rw [hcf] at h2; simp at h2

theorem htmlSplitLoop_step_nofence_comment {orig : List Char} {i s e : Nat}
    (hcf : detectCodeFence (orig.drop i) = none)
    (hdc : detectComment (orig.drop i) = (some s, some e)) :
    htmlSplitLoop orig i = (i + e, some (i + s, ((orig.drop i).drop s).take (e - s))) := by
  rw [htmlSplitLoop]
  split
  next cfStart2 cfEnd2 h2 => rw [hcf] at h2; cases h2
  next cfStart2 h2 => rw [hcf] at h2; cases h2
  next => rw [hdc]

theorem htmlSplitLoop_step_nofence_skip {orig : List Char} {i : Nat}
    (hcf : detectCodeFence (orig.drop i) = none)
    (hdc : isCompleteComment (detectComment (orig.drop i)) = false) :
    htmlSplitLoop orig i = (orig.length, none) := by
  rw [htmlSplitLoop]
  split
  next cfStart2 cfEnd2 h2 => rw [hcf] at h2; cases h2
  next cfStart2 h2 => rw [hcf] at h2; cases h2
  next =>
    split
    next hdc2 => rw [hdc2] at hdc; cases hdc
    next => rfl

/-- Unfolding `scanHtmlComments` when the split yields a token. -/
theorem scanHtmlComments_token {data : List Char} {adv st : Nat} {tok : List Char}
    (h : htmlSplitLoop data 0 = (adv, some (st, tok))) :
    scanHtmlComments data
      = (st, tok) ::
          (if adv = 0 then []
           else (scanHtmlComments (data.drop adv)).map fun pr => (adv + pr.1, pr.2)) := by
  rw [scanHtmlComments]
  split
  next adv2 st2 tok2 hs =>
    rw [h] at hs
    obtain ⟨rfl, rfl, rfl⟩ : adv = adv2 ∧ st = st2 ∧ tok = tok2 := by simpa using hs
    by_cases hz : adv = 0 <;> simp [hz]
  next adv2 hs =>
    rw [h] at hs
    simp at hs

/-- Unfolding `scanHtmlComments` when the split yields no token. -/
theorem scanHtmlComments_none {data : List Char} {adv : Nat}
    (h : htmlSplitLoop data 0 = (adv, none)) :
    scanHtmlComments data
      = (if adv = 0 then []
         else (scanHtmlComments (data.drop adv)).map fun pr => (adv + pr.1, pr.2)) := by
  rw [scanHtmlComments]
  split
  next adv2 st2 tok2 hs =>
    rw [h] at hs
    simp at hs
  next adv2 hs =>
    rw [h] at hs
    obtain rfl : adv = adv2 := by simpa using hs
    by_cases hz : adv = 0 <;> simp [hz]

/-- A complete comment reported by `detectComment` satisfies the obvious
offset bounds. -/
theorem detectComment_complete_bounds {sr : List Char} {s e : Nat}
    (h : detectComment sr = (some s, some e)) :
    s + 4 ≤ e ∧ e ≤ sr.length := by
  cases hfi : firstIdxOf "-->".data sr with
  | none => simp only [detectComment, hfi] at h; simp at h
  | some e0 =>
    simp only [detectComment, hfi] at h
    split at h
    next hpos =>
      obtain ⟨hlast, rfl⟩ : lastIdxOf "<!--".data (sr.take e0) = some s ∧ e0 + 3 = e := by
        simpa using h
      have hp := lastIdxOf_some_prefix hlast
      have hsb := isPrefixOf_drop_length hp (by decide)
      have hlen4 : ("<!--".data).length = 4 := rfl
      rw [hlen4] at hsb
      have htk : (sr.take e0).length ≤ e0 := by
        simp [List.length_take]
      have he0p := (firstIdxOf_some_iff (n := "-->".data) (by decide)).1 hfi
      have heb := isPrefixOf_drop_length he0p.1 (by decide)
      have hlen3 : ("-->".data).length = 3 := rfl
      rw [hlen3] at heb
      exact ⟨by omega, by omega⟩
    next => simp at h

/-- `detectComment` of the empty range finds nothing. -/
theorem detectComment_nil : detectComment [] = (none, none) := by
  simp [detectComment, firstIdxOf]

/-- The split function never goes backwards: the advance, and a yielded
token's start, are at least the current offset. -/
theorem htmlSplitLoop_ge (orig : List Char) : ∀ (k i : Nat), orig.length - i = k →
    i ≤ orig.length →
    i ≤ (htmlSplitLoop orig i).1 ∧
      ∀ st tok, (htmlSplitLoop orig i).2 = some (st, tok) → i ≤ st := by
  intro k
  induction k using Nat.strong_induction_on with
  | _ k ih =>
    intro i hk hi
    rw [htmlSplitLoop]
    split
    next cfStart cfEnd hcf =>
      have hb := detectCodeFence_close_bounds hcf
      rw [List.length_drop] at hb
      split
      next =>
        refine ⟨by omega, ?_⟩
        intro st tok hst
        obtain ⟨rfl, rfl⟩ : _ ∧ _ := by simpa using hst
        omega
      next =>
        have hrec := ih (orig.length - (i + cfEnd)) (by omega) (i + cfEnd) rfl (by omega)
        refine ⟨by omega, ?_⟩
        intro st tok hst
        have := hrec.2 st tok hst
        omega
    next cfStart hcf =>
      split
      next =>
        refine ⟨by omega, ?_⟩
        intro st tok hst
        obtain ⟨rfl, rfl⟩ : _ ∧ _ := by simpa using hst
        omega
      next =>
        refine ⟨by omega, ?_⟩
        intro st tok hst
        cases hst
    next hcf =>
      split
      next =>
        refine ⟨by omega, ?_⟩
        intro st tok hst
        obtain ⟨rfl, rfl⟩ : _ ∧ _ := by simpa using hst
        omega
      next =>
        refine ⟨hi, ?_⟩
        intro st tok hst
        cases hst

/-- For offsets in a delimiter-free zone before a fence opening (at `p`,
delimiter `delim`, the other delimiter `other`), `detectCodeFence` on the
remaining data reports exactly that fence, its close determined by the
first later occurrence of the same delimiter. -/
theorem detectCodeFence_at_fence
    (doc : List Char) (p : Nat) (delim other : List Char)
    (hdelims : (delim = tickDelim ∧ other = tildeDelim)
      ∨ (delim = tildeDelim ∧ other = tickDelim))
    (base : Nat)
    (hbt : ∀ j, base ≤ j → j < p → ¬ occursAt tickDelim doc j = true)
    (hbl : ∀ j, base ≤ j → j < p → ¬ occursAt tildeDelim doc j = true)
    (hAt : occursAt delim doc p = true)
    (hbp : base ≤ p) :
    detectCodeFence (doc.drop base)
      = some (p - base,
          (firstIdxOf delim (doc.drop (p + 4))).map fun e => p - base + e + 8) := by
  have hdl : delim.length = 4 := by rcases hdelims with ⟨h1, _⟩ | ⟨h1, _⟩ <;> rw [h1] <;> rfl
  have hol : other.length = 4 := by rcases hdelims with ⟨_, h2⟩ | ⟨_, h2⟩ <;> rw [h2] <;> rfl
  have hdn : delim ≠ [] := by intro hx; rw [hx] at hdl; cases hdl
  have hon : other ≠ [] := by intro hx; rw [hx] at hol; cases hol
  have hbd : ∀ j, base ≤ j → j < p → ¬ occursAt delim doc j = true := by
    rcases hdelims with ⟨h1, _⟩ | ⟨h1, _⟩ <;> rw [h1] <;> [exact hbt; exact hbl]
  have hbo : ∀ j, base ≤ j → j < p → ¬ occursAt other doc j = true := by
    rcases hdelims with ⟨_, h2⟩ | ⟨_, h2⟩ <;> rw [h2] <;> [exact hbl; exact hbt]
  have hclash : ¬ occursAt other doc p = true := by
    intro hx
    rcases hdelims with ⟨h1, h2⟩ | ⟨h1, h2⟩
    · exact tick_tilde_clash (h1 ▸ hAt) (h2 ▸ hx)
    · exact tick_tilde_clash (h2 ▸ hx) (h1 ▸ hAt)
  have hfd : firstIdxOf delim (doc.drop base) = some (p - base) := by
    apply (firstIdxOf_some_iff hdn).2
    constructor
    · rw [drop_drop_add]
      have : base + (p - base) = p := by omega
      rw [this]
      exact hAt
    · intro j hj
      rw [drop_drop_add]
      exact hbd (base + j) (by omega) (by omega)
  have hfo : ∀ t, firstIdxOf other (doc.drop base) = some t → p - base < t := by
    intro t ht
    have := (firstIdxOf_some_iff hon).1 ht
    have hocc : occursAt other doc (base + t) = true := by
      rw [occursAt, ← drop_drop_add]
      exact this.1
    by_contra hle
    have hlep : base + t ≤ p := by omega
    rcases Nat.lt_or_ge (base + t) p with hlt | hge
    · exact hbo (base + t) (by omega) hlt hocc
    · have : base + t = p := by omega
      rw [this] at hocc
      exact hclash hocc
  have hfc : fenceClose (doc.drop base) (p - base) delim
      = (p - base, (firstIdxOf delim (doc.drop (p + 4))).map fun e => p - base + e + 8) := by
    rw [fenceClose, hdl]
    have hdd : (doc.drop base).drop (p - base + 4) = doc.drop (p + 4) := by
      rw [drop_drop_add]
      have : base + (p - base + 4) = p + 4 := by omega
      rw [this]
    rw [hdd]
    cases hcl : firstIdxOf delim (doc.drop (p + 4)) with
    | none => rfl
    | some e => rfl
  rcases hdelims with ⟨h1, h2⟩ | ⟨h1, h2⟩
  · subst h1; subst h2
    cases htl : firstIdxOf tildeDelim (doc.drop base) with
    | none => simp only [detectCodeFence, hfd, htl]; rw [hfc]
    | some tl =>
      have hgt := hfo tl htl
      simp only [detectCodeFence, hfd, htl]
      rw [if_neg (by omega)]
      rw [hfc]
  · subst h1; subst h2
    cases hts : firstIdxOf tickDelim (doc.drop base) with
    | none => simp only [detectCodeFence, hts, hfd]; rw [hfc]
    | some ts =>
      have hgt := hfo ts hts
      simp only [detectCodeFence, hts, hfd]
      rw [if_pos (by omega)]
      rw [hfc]

/-- Fuel-indexed evaluation twin of `htmlSplitLoop` (identical body; the
fuel only discharges termination, every call below supplies enough). -/
def htmlSplitLoopF : Nat → List Char → Nat → Nat × Option (Nat × List Char)
  | 0, orig, _ => (orig.length, none)
  | fuel + 1, orig, i =>
    match detectCodeFence (orig.drop i) with
    | some (cfStart, some cfEnd) =>
      match detectComment ((orig.drop i).take cfStart) with
      | (some cmStart, some cmEnd) =>
        (i + cmEnd, some (i + cmStart, ((orig.drop i).drop cmStart).take (cmEnd - cmStart)))
      | _ => htmlSplitLoopF fuel orig (i + cfEnd)
    | some (cfStart, none) =>
      match detectComment ((orig.drop i).take cfStart) with
      | (some cmStart, some cmEnd) =>
        (i + cmEnd, some (i + cmStart, ((orig.drop i).drop cmStart).take (cmEnd - cmStart)))
      | _ => (i + cfStart, none)
    | none =>
      match detectComment (orig.drop i) with
      | (some cmStart, some cmEnd) =>
        (i + cmEnd, some (i + cmStart, ((orig.drop i).drop cmStart).take (cmEnd - cmStart)))
      | _ => (orig.length, none)

theorem isCompleteComment_false_of_not {r : Option Nat × Option Nat}
    (hx : ∀ s e, r = (some s, some e) → False) : isCompleteComment r = false := by
  rcases r with ⟨o1, o2⟩
  cases o1 with
  | none => rfl
  | some s =>
    cases o2 with
    | none => rfl
    | some e => exact (hx s e rfl).elim

theorem htmlSplitLoopF_eq (orig : List Char) :
    ∀ (fuel i : Nat), orig.length - i < 8 * fuel →
    htmlSplitLoopF fuel orig i = htmlSplitLoop orig i := by
  intro fuel
  induction fuel with
  | zero => intro i h; omega
  | succ f ih =>
    intro i h
    rw [htmlSplitLoopF]
    split
    next cfStart cfEnd hcf =>
      split
      next cmStart cmEnd hdc => rw [htmlSplitLoop_step_fence_comment hcf hdc]
      next x hx =>
        rw [htmlSplitLoop_step_fence_skip hcf (isCompleteComment_false_of_not hx)]
        have hb := detectCodeFence_close_bounds hcf
        rw [List.length_drop] at hb
        exact ih (i + cfEnd) (by omega)
    next cfStart hcf =>
      split
      next cmStart cmEnd hdc => rw [htmlSplitLoop_step_open_comment hcf hdc]
      next x hx =>
        rw [htmlSplitLoop_step_open_skip hcf (isCompleteComment_false_of_not hx)]
    next hcf =>
      split
      next cmStart cmEnd hdc => rw [htmlSplitLoop_step_nofence_comment hcf hdc]
      next x hx =>
        rw [htmlSplitLoop_step_nofence_skip hcf (isCompleteComment_false_of_not hx)]

/-- Fuel-indexed evaluation twin of the scanner driver. -/
def scanHtmlCommentsF : Nat → List Char → List (Nat × List Char)
  | 0, _ => []
  | fuel + 1, data =>
    match htmlSplitLoopF (data.length + 1) data 0 with
    | (adv, some (st, tok)) =>
      (st, tok) ::
        (if adv = 0 then []
         else (scanHtmlCommentsF fuel (data.drop adv)).map fun pr => (adv + pr.1, pr.2))
    | (adv, none) =>
      if adv = 0 then []
      else (scanHtmlCommentsF fuel (data.drop adv)).map fun pr => (adv + pr.1, pr.2)

theorem scanHtmlCommentsF_eq :
    ∀ (fuel : Nat) (data : List Char), data.length < fuel →
    scanHtmlCommentsF fuel data = scanHtmlComments data := by
  intro fuel
  induction fuel with
  | zero => intro data h; omega
  | succ f ih =>
    intro data h
    rw [scanHtmlCommentsF]
    have hsp : htmlSplitLoopF (data.length + 1) data 0 = htmlSplitLoop data 0 :=
      htmlSplitLoopF_eq data (data.length + 1) 0 (by omega)
    rw [hsp]
    cases hs : htmlSplitLoop data 0 with
    | mk adv r =>
      cases r with
      | some prst =>
        obtain ⟨st, tok⟩ := prst
        rw [scanHtmlComments_token hs]
        dsimp only
        by_cases hz : adv = 0
        · simp [hz]
        · have hne : data ≠ [] := by
            intro hnil
            rw [hnil, htmlSplitLoop_nil] at hs
            cases hs
          have hpos : 0 < data.length := List.length_pos.2 hne
          rw [if_neg hz, if_neg hz, ih (data.drop adv) (by rw [List.length_drop]; omega)]
      | none =>
        rw [scanHtmlComments_none hs]
        dsimp only
        by_cases hz : adv = 0
        · simp [hz]
        · have hne : data ≠ [] := by
            intro hnil
            rw [hnil, htmlSplitLoop_nil] at hs
            cases hs
            exact hz rfl
          have hpos : 0 < data.length := List.length_pos.2 hne
          rw [if_neg hz, if_neg hz, ih (data.drop adv) (by rw [List.length_drop]; omega)]

/-- Evaluation rule: run the scanner with sufficient fuel. -/
theorem scanHtmlComments_eval (data : List Char) :
    scanHtmlComments data = scanHtmlCommentsF (data.length + 1) data :=
  (scanHtmlCommentsF_eq (data.length + 1) data (by omega)).symm

/-- No fence delimiter of either kind occurs at an index in `[lo, hi)`. -/
def noDelimsIn (doc : List Char) (lo hi : Nat) : Bool :=
  (List.range (hi - lo)).all fun k =>
    !occursAt tickDelim doc (lo + k) && !occursAt tildeDelim doc (lo + k)

/-- No occurrence of the delimiter `d` at an index in `[lo, hi)`. -/
def noDelim1In (doc : List Char) (d : List Char) (lo hi : Nat) : Bool :=
  (List.range (hi - lo)).all fun k => !occursAt d doc (lo + k)

theorem noDelimsIn_spec {doc : List Char} {lo hi : Nat}
    (h : noDelimsIn doc lo hi = true) :
    ∀ j, lo ≤ j → j < hi →
      occursAt tickDelim doc j = false ∧ occursAt tildeDelim doc j = false := by
  intro j h1 h2
  rw [noDelimsIn, List.all_eq_true] at h
  have hj := h (j - lo) (List.mem_range.2 (by omega))
  have harg : lo + (j - lo) = j := by omega
  rw [harg] at hj
  simp only [Bool.and_eq_true, Bool.not_eq_true'] at hj
  exact hj

theorem noDelimsIn_intro {doc : List Char} {lo hi : Nat}
    (h : ∀ j, lo ≤ j → j < hi →
      occursAt tickDelim doc j = false ∧ occursAt tildeDelim doc j = false) :
    noDelimsIn doc lo hi = true := by
  rw [noDelimsIn, List.all_eq_true]
  intro k hk
  rw [List.mem_range] at hk
  have := h (lo + k) (by omega) (by omega)
  simp only [Bool.and_eq_true, Bool.not_eq_true']
  exact this

theorem noDelimsIn_mono {doc : List Char} {lo lo2 hi : Nat}
    (h : noDelimsIn doc lo hi = true) (hl : lo ≤ lo2) :
    noDelimsIn doc lo2 hi = true :=
  noDelimsIn_intro fun j h1 h2 => noDelimsIn_spec h j (by omega) h2

theorem noDelim1In_spec {doc d : List Char} {lo hi : Nat}
    (h : noDelim1In doc d lo hi = true) :
    ∀ j, lo ≤ j → j < hi → occursAt d doc j = false := by
  intro j h1 h2
  rw [noDelim1In, List.all_eq_true] at h
  have hj := h (j - lo) (List.mem_range.2 (by omega))
  have harg : lo + (j - lo) = j := by omega
  rw [harg] at hj
  simpa using hj

/-- A properly paired sequence of fenced blocks between `base` and the
fence opening of interest at `p`: each listed block `(a, b, d)` is opened
by a newline-preceded delimiter occurrence of kind `d` at `a` and closed by
the next occurrence of `d` at `b` (occurrences of the other kind strictly
inside are interior content); no delimiter of either kind occurs in the
gaps between blocks (nor between the last block and `p`). -/
def fencesOk (doc : List Char) (p : Nat) : Nat → List (Nat × Nat × List Char) → Bool
  | base, [] => noDelimsIn doc base p
  | base, (a, b, d) :: fs =>
    decide (base ≤ a) && decide (a + 4 ≤ b) && decide (b + 4 ≤ p) &&
      (d == tickDelim || d == tildeDelim) &&
      occursAt d doc a && occursAt d doc b &&
      noDelimsIn doc base a && noDelim1In doc d (a + 4) b &&
      fencesOk doc p (b + 4) fs

theorem fencesOk_cons {doc : List Char} {p base a b : Nat} {d : List Char}
    {fs : List (Nat × Nat × List Char)}
    (h : fencesOk doc p base ((a, b, d) :: fs) = true) :
    base ≤ a ∧ a + 4 ≤ b ∧ b + 4 ≤ p ∧ (d = tickDelim ∨ d = tildeDelim) ∧
      occursAt d doc a = true ∧ occursAt d doc b = true ∧
      noDelimsIn doc base a = true ∧ noDelim1In doc d (a + 4) b = true ∧
      fencesOk doc p (b + 4) fs = true := by
  rw [fencesOk] at h
  simp only [Bool.and_eq_true, decide_eq_true_eq, Bool.or_eq_true, beq_iff_eq] at h
  exact ⟨h.1.1.1.1.1.1.1.1, h.1.1.1.1.1.1.1.2, h.1.1.1.1.1.1.2, h.1.1.1.1.1.2,
    h.1.1.1.1.2, h.1.1.1.2, h.1.1.2, h.1.2, h.2⟩

theorem fencesOk_cons_intro {doc : List Char} {p base a b : Nat} {d : List Char}
    {fs : List (Nat × Nat × List Char)}
    (h1 : base ≤ a) (h2 : a + 4 ≤ b) (h3 : b + 4 ≤ p)
    (h4 : d = tickDelim ∨ d = tildeDelim)
    (h5 : occursAt d doc a = true) (h6 : occursAt d doc b = true)
    (h7 : noDelimsIn doc base a = true) (h8 : noDelim1In doc d (a + 4) b = true)
    (h9 : fencesOk doc p (b + 4) fs = true) :
    fencesOk doc p base ((a, b, d) :: fs) = true := by
  rw [fencesOk]
  simp only [Bool.and_eq_true, decide_eq_true_eq, Bool.or_eq_true, beq_iff_eq]
  exact ⟨⟨⟨⟨⟨⟨⟨⟨h1, h2⟩, h3⟩, h4⟩, h5⟩, h6⟩, h7⟩, h8⟩, h9⟩

/-- `detectCodeFence` at an offset in the gap before a properly paired
block `(a, b)` reports exactly that block. -/
theorem detectCodeFence_at_inner_fence
    (doc : List Char) (a b : Nat) (d other : List Char)
    (hdelims : (d = tickDelim ∧ other = tildeDelim)
      ∨ (d = tildeDelim ∧ other = tickDelim))
    (hocca : occursAt d doc a = true) (hoccb : occursAt d doc b = true)
    (hab : a + 4 ≤ b)
    (base : Nat) (hba : base ≤ a)
    (hgap : ∀ j, base ≤ j → j < a →
      occursAt tickDelim doc j = false ∧ occursAt tildeDelim doc j = false)
    (hmidf : ∀ j, a + 4 ≤ j → j < b → occursAt d doc j = false) :
    detectCodeFence (doc.drop base) = some (a - base, some (b + 4 - base)) := by
  have hdl : d.length = 4 := by rcases hdelims with ⟨h1, _⟩ | ⟨h1, _⟩ <;> rw [h1] <;> rfl
  have hol : other.length = 4 := by rcases hdelims with ⟨_, h2⟩ | ⟨_, h2⟩ <;> rw [h2] <;> rfl
  have hdn : d ≠ [] := by intro hx; rw [hx] at hdl; cases hdl
  have hon : other ≠ [] := by intro hx; rw [hx] at hol; cases hol
  have hbd : ∀ j, base ≤ j → j < a → ¬ occursAt d doc j = true := by
    intro j h1 h2 hx
    rcases hdelims with ⟨h3, _⟩ | ⟨h3, _⟩
    · rw [h3] at hx
      rw [(hgap j h1 h2).1] at hx
      cases hx
    · rw [h3] at hx
      rw [(hgap j h1 h2).2] at hx
      cases hx
  have hbo : ∀ j, base ≤ j → j < a → ¬ occursAt other doc j = true := by
    intro j h1 h2 hx
    rcases hdelims with ⟨_, h3⟩ | ⟨_, h3⟩
    · rw [h3] at hx
      rw [(hgap j h1 h2).2] at hx
      cases hx
    · rw [h3] at hx
      rw [(hgap j h1 h2).1] at hx
      cases hx
  have hclash : ¬ occursAt other doc a = true := by
    intro hx
    rcases hdelims with ⟨h1, h2⟩ | ⟨h1, h2⟩
    · exact tick_tilde_clash (h1 ▸ hocca) (h2 ▸ hx)
    · exact tick_tilde_clash (h2 ▸ hx) (h1 ▸ hocca)
  have hfd : firstIdxOf d (doc.drop base) = some (a - base) := by
    apply (firstIdxOf_some_iff hdn).2
    constructor
    · rw [drop_drop_add]
      have : base + (a - base) = a := by omega
      rw [this]
      exact hocca
    · intro j hj
      rw [drop_drop_add]
      exact hbd (base + j) (by omega) (by omega)
  have hfo : ∀ t, firstIdxOf other (doc.drop base) = some t → a - base < t := by
    intro t ht
    have := (firstIdxOf_some_iff hon).1 ht
    have hocc : occursAt other doc (base + t) = true := by
      rw [occursAt, ← drop_drop_add]
      exact this.1
    by_contra hle
    rcases Nat.lt_or_ge (base + t) a with hlt | hge
    · exact hbo (base + t) (by omega) hlt hocc
    · have : base + t = a := by omega
      rw [this] at hocc
      exact hclash hocc
  have hclose : firstIdxOf d ((doc.drop base).drop (a - base + 4)) = some (b - (a + 4)) := by
    have hdd : (doc.drop base).drop (a - base + 4) = doc.drop (a + 4) := by
      rw [drop_drop_add]
      have : base + (a - base + 4) = a + 4 := by omega
      rw [this]
    rw [hdd]
    apply (firstIdxOf_some_iff hdn).2
    constructor
    · rw [drop_drop_add]
      have : a + 4 + (b - (a + 4)) = b := by omega
      rw [this]
      exact hoccb
    · intro j hj hx
      have := hmidf (a + 4 + j) (by omega) (by omega)
      rw [drop_drop_add] at hx
      rw [occursAt] at this
      rw [this] at hx
      cases hx
  have hfc : fenceClose (doc.drop base) (a - base) d = (a - base, some (b + 4 - base)) := by
    rw [fenceClose, hdl, hclose]
    show (a - base, some (a - base + (b - (a + 4)) + 4 * 2)) = _
    have harith : a - base + (b - (a + 4)) + 4 * 2 = b + 4 - base := by omega
    rw [harith]
  rcases hdelims with ⟨h1, h2⟩ | ⟨h1, h2⟩
  · subst h1; subst h2
    cases htl : firstIdxOf tildeDelim (doc.drop base) with
    | none => simp only [detectCodeFence, hfd, htl]; rw [hfc]
    | some tl =>
      have hgt := hfo tl htl
      simp only [detectCodeFence, hfd, htl]
      rw [if_neg (by omega)]
      rw [hfc]
  · subst h1; subst h2
    cases hts : firstIdxOf tickDelim (doc.drop base) with
    | none => simp only [detectCodeFence, hts, hfd]; rw [hfc]
    | some ts =>
      have hgt := hfo ts hts
      simp only [detectCodeFence, hts, hfd]
      rw [if_pos (by omega)]
      rw [hfc]

/-- Walking a properly paired fence prefix inside one split call: starting
at internal offset `i`, the split either yields a comment token lying in a
gap before `p` (leaving a properly paired remainder), or reduces to the
split at an offset whose remaining zone up to `p` is delimiter-free. -/
theorem htmlSplitLoop_fences (doc : List Char) (p base : Nat) :
    ∀ (fs : List (Nat × Nat × List Char)) (i : Nat),
      base + i ≤ p → fencesOk doc p (base + i) fs = true →
      (∃ st e tok, htmlSplitLoop (doc.drop base) i = (e, some (st, tok)) ∧
          base + st + tok.length ≤ p ∧ i < e ∧ base + e ≤ p ∧
          ∃ fs2, fencesOk doc p (base + e) fs2 = true)
        ∨ (∃ i2, htmlSplitLoop (doc.drop base) i = htmlSplitLoop (doc.drop base) i2 ∧
            base + i2 ≤ p ∧ noDelimsIn doc (base + i2) p = true)
  | [], i, hip, hfs => Or.inr ⟨i, rfl, hip, hfs⟩
  | (a, b, d) :: fs, i, hip, hfs => by
    obtain ⟨hba, hab, hbp, hd, hocca, hoccb, hgap, hmidf, hrest⟩ := fencesOk_cons hfs
    have hcfd : detectCodeFence (doc.drop (base + i)) = some (a - (base + i), some (b + 4 - (base + i))) := by
      rcases hd with h1 | h1
    -- the block's kind fixes the paired other delimiter
      · exact detectCodeFence_at_inner_fence doc a b d tildeDelim (Or.inl ⟨h1, rfl⟩)
          hocca hoccb hab (base + i) hba (noDelimsIn_spec hgap) (noDelim1In_spec hmidf)
      · exact detectCodeFence_at_inner_fence doc a b d tickDelim (Or.inr ⟨h1, rfl⟩)
          hocca hoccb hab (base + i) hba (noDelimsIn_spec hgap) (noDelim1In_spec hmidf)
    have hcf : detectCodeFence ((doc.drop base).drop i) = some (a - (base + i), some (b + 4 - (base + i))) := by
      rw [drop_drop_add]
      exact hcfd
    by_cases hic : isCompleteComment
        (detectComment (((doc.drop base).drop i).take (a - (base + i)))) = true
    · obtain ⟨s, e0, hdc⟩ := isCompleteComment_eq_true hic
      have hsplit := htmlSplitLoop_step_fence_comment hcf hdc
      have hbounds := detectComment_complete_bounds hdc
      have htl : (((doc.drop base).drop i).take (a - (base + i))).length ≤ a - (base + i) := by
        simp [List.length_take]
      have htok := List.length_take_le (e0 - s) (((doc.drop base).drop i).drop s)
      left
      refine ⟨i + s, i + e0, _, hsplit, by omega, by omega, by omega, (a, b, d) :: fs, ?_⟩
      exact fencesOk_cons_intro (by omega) hab hbp hd hocca hoccb
        (noDelimsIn_mono hgap (by omega)) hmidf hrest
    · have hic' : isCompleteComment
          (detectComment (((doc.drop base).drop i).take (a - (base + i)))) = false :=
        Bool.not_eq_true _ ▸ Bool.of_not_eq_true hic
      have hsplit := htmlSplitLoop_step_fence_skip hcf hic'
      have harg : i + (b + 4 - (base + i)) = b + 4 - base := by omega
      rw [harg] at hsplit
      have hrest2 : fencesOk doc p (base + (b + 4 - base)) fs = true := by
        have harg2 : base + (b + 4 - base) = b + 4 := by omega
        rw [harg2]
        exact hrest
      have hrec := htmlSplitLoop_fences doc p base fs (b + 4 - base) (by omega) hrest2
      rcases hrec with ⟨st, e0, tok, heq, h1, h2, h3, h4⟩ | ⟨i2, heq, h1, h2⟩
      · exact Or.inl ⟨st, e0, tok, hsplit.trans heq, h1, by omega, h3, h4⟩
      · exact Or.inr ⟨i2, hsplit.trans heq, h1, h2⟩

/-- Fence-skip, complete-fence case: scanning from any offset from which
the delimiter occurrences up to the fence opening at `p` form a properly
paired sequence of blocks (`p` closed by the next same-delimiter occurrence
at `c`) yields only tokens that end at or before `p` or start at or after
the end of the closing delimiter. -/
theorem scan_complete_fence_aux
    (doc : List Char) (p c : Nat) (delim other : List Char)
    (hdelims : (delim = tickDelim ∧ other = tildeDelim)
      ∨ (delim = tildeDelim ∧ other = tickDelim))
    (hAt : occursAt delim doc p = true)
    (hc : occursAt delim doc c = true)
    (hpc : p + 4 ≤ c)
    (hmid : ∀ j, p + 4 ≤ j → j < c → ¬ occursAt delim doc j = true) :
    ∀ (k base : Nat), p - base = k → base ≤ p →
      (∃ fs, fencesOk doc p base fs = true) →
      ∀ pr ∈ scanHtmlComments (doc.drop base),
        base + pr.1 + pr.2.length ≤ p ∨ c + 4 ≤ base + pr.1 := by
  have hdl : delim.length = 4 := by
    rcases hdelims with ⟨h1, _⟩ | ⟨h1, _⟩ <;> rw [h1] <;> rfl
  have hdn : delim ≠ [] := by intro hx; rw [hx] at hdl; cases hdl
  have hcdoc : c + 4 ≤ doc.length := by
    have := isPrefixOf_drop_length (n := delim) (d := doc) (i := c) hc hdn
    omega
  have hclosefi : firstIdxOf delim (doc.drop (p + 4)) = some (c - (p + 4)) := by
    apply (firstIdxOf_some_iff hdn).2
    constructor
    · rw [drop_drop_add]
      have harg : p + 4 + (c - (p + 4)) = c := by omega
      rw [harg]
      exact hc
    · intro j hj
      rw [drop_drop_add]
      exact hmid (p + 4 + j) (by omega) (by omega)
  intro k
  induction k using Nat.strong_induction_on with
  | _ k ih =>
    intro base hk hbp hfse pr hpr
    obtain ⟨fs, hfs⟩ := hfse
    have hfs0 : fencesOk doc p (base + 0) fs = true := by
      rw [Nat.add_zero]; exact hfs
    rcases htmlSplitLoop_fences doc p base fs 0 (by omega) hfs0 with
      ⟨st, e0, tok, heq, hend, hpos, hep, fs2, hfs2⟩ | ⟨i2, heq, hi2p, hfree⟩
    · rw [scanHtmlComments_token heq] at hpr
      rcases List.mem_cons.1 hpr with hhd | htail
      · left
        subst hhd
        dsimp only
        omega
      · rw [if_neg (by omega)] at htail
        obtain ⟨x, hx, rfl⟩ := List.mem_map.1 htail
        rw [drop_drop_add] at hx
        have hrec := ih (p - (base + e0)) (by omega) (base + e0) rfl (by omega)
          ⟨fs2, hfs2⟩ x hx
        dsimp only
        rcases hrec with hL | hR
        · left; omega
        · right; omega
    · have hfree' := noDelimsIn_spec hfree
      have hbt2 : ∀ j, base + i2 ≤ j → j < p → ¬ occursAt tickDelim doc j = true := by
        intro j h1 h2 hx
        rw [(hfree' j h1 h2).1] at hx
        cases hx
      have hbl2 : ∀ j, base + i2 ≤ j → j < p → ¬ occursAt tildeDelim doc j = true := by
        intro j h1 h2 hx
        rw [(hfree' j h1 h2).2] at hx
        cases hx
      have hcf0 := detectCodeFence_at_fence doc p delim other hdelims (base + i2)
        hbt2 hbl2 hAt hi2p
      rw [hclosefi] at hcf0
      simp only [Option.map] at hcf0
      have hq : p - (base + i2) + (c - (p + 4)) + 8 = c + 4 - (base + i2) := by omega
      rw [hq] at hcf0
      have hcf0' : detectCodeFence ((doc.drop base).drop i2)
          = some (p - (base + i2), some (c + 4 - (base + i2))) := by
        rw [drop_drop_add]
        exact hcf0
      by_cases hic : isCompleteComment
          (detectComment (((doc.drop base).drop i2).take (p - (base + i2)))) = true
      · obtain ⟨s, e, hdc⟩ := isCompleteComment_eq_true hic
        have hsplit := heq.trans (htmlSplitLoop_step_fence_comment hcf0' hdc)
        rw [scanHtmlComments_token hsplit] at hpr
        have hbounds := detectComment_complete_bounds hdc
        have htl : (((doc.drop base).drop i2).take (p - (base + i2))).length
            ≤ p - (base + i2) := by
          simp [List.length_take]
        rcases List.mem_cons.1 hpr with hhd | htail
        · left
          subst hhd
          have htok := List.length_take_le (e - s) (((doc.drop base).drop i2).drop s)
          dsimp only
          omega
        · by_cases hz : i2 + e = 0
          · rw [if_pos hz] at htail; cases htail
          · rw [if_neg hz] at htail
            obtain ⟨x, hx, rfl⟩ := List.mem_map.1 htail
            rw [drop_drop_add] at hx
            have hfs3 : fencesOk doc p (base + (i2 + e))
                ([] : List (Nat × Nat × List Char)) = true :=
              noDelimsIn_mono hfree (by omega)
            have hrec := ih (p - (base + (i2 + e))) (by omega) (base + (i2 + e)) rfl
              (by omega) ⟨[], hfs3⟩ x hx
            dsimp only
            rcases hrec with hL | hR
            · left; omega
            · right; omega
      · have hic' : isCompleteComment
            (detectComment (((doc.drop base).drop i2).take (p - (base + i2)))) = false :=
          Bool.not_eq_true _ ▸ Bool.of_not_eq_true hic
        have hsplit0 := htmlSplitLoop_step_fence_skip hcf0' hic'
        have harg : i2 + (c + 4 - (base + i2)) = c + 4 - base := by omega
        rw [harg] at hsplit0
        have hsplit1 := heq.trans hsplit0
        have hlen : c + 4 - base ≤ (doc.drop base).length := by
          rw [List.length_drop]; omega
        have hge := htmlSplitLoop_ge (doc.drop base)
          ((doc.drop base).length - (c + 4 - base)) (c + 4 - base) rfl hlen
        cases hres : htmlSplitLoop (doc.drop base) (c + 4 - base) with
        | mk adv r =>
          have hadv : c + 4 - base ≤ adv := by
            have := hge.1; rw [hres] at this; exact this
          have hsplit2 := hsplit1.trans hres
          cases r with
          | some z =>
            obtain ⟨st, tok⟩ := z
            have hst : c + 4 - base ≤ st := hge.2 st tok (by rw [hres])
            rw [scanHtmlComments_token hsplit2] at hpr
            rcases List.mem_cons.1 hpr with hhd | htail
            · right; subst hhd; dsimp only; omega
            · by_cases hz : adv = 0
              · rw [if_pos hz] at htail; cases htail
              · rw [if_neg hz] at htail
                obtain ⟨x, hx, rfl⟩ := List.mem_map.1 htail
                right; dsimp only; omega
          | none =>
            rw [scanHtmlComments_none hsplit2] at hpr
            by_cases hz : adv = 0
            · rw [if_pos hz] at hpr; cases hpr
            · rw [if_neg hz] at hpr
              obtain ⟨x, hx, rfl⟩ := List.mem_map.1 hpr
              right; dsimp only; omega

/-- Fence-skip, unclosed-fence case: after a fence opening with no later
close (the opening preceded by any properly paired block sequence), the
scanner yields only tokens that end at or before the opening. -/
theorem scan_unclosed_fence_aux
    (doc : List Char) (p : Nat) (delim other : List Char)
    (hdelims : (delim = tickDelim ∧ other = tildeDelim)
      ∨ (delim = tildeDelim ∧ other = tickDelim))
    (hAt : occursAt delim doc p = true)
    (hnoc : ∀ j, p + 4 ≤ j → ¬ occursAt delim doc j = true) :
    ∀ (k base : Nat), p - base = k → base ≤ p →
      (∃ fs, fencesOk doc p base fs = true) →
      ∀ pr ∈ scanHtmlComments (doc.drop base), base + pr.1 + pr.2.length ≤ p := by
  have hdl : delim.length = 4 := by
    rcases hdelims with ⟨h1, _⟩ | ⟨h1, _⟩ <;> rw [h1] <;> rfl
  have hdn : delim ≠ [] := by intro hx; rw [hx] at hdl; cases hdl
  have hclosefi : firstIdxOf delim (doc.drop (p + 4)) = none := by
    apply (firstIdxOf_none_iff hdn).2
    intro j
    rw [drop_drop_add]
    exact hnoc (p + 4 + j) (by omega)
  have hscanp : scanHtmlComments (doc.drop p) = [] := by
    have hcfp := detectCodeFence_at_fence doc p delim other hdelims p
      (fun j h1 h2 => absurd h2 (by omega)) (fun j h1 h2 => absurd h2 (by omega))
      hAt (le_refl p)
    rw [hclosefi] at hcfp
    simp only [Option.map] at hcfp
    have hsp : p - p = 0 := by omega
    rw [hsp] at hcfp
    have hcfp' : detectCodeFence ((doc.drop p).drop 0) = some (0, none) := by
      rw [List.drop_zero]; exact hcfp
    have hdcp : isCompleteComment (detectComment (((doc.drop p).drop 0).take 0)) = false := by
      rw [List.take_zero, detectComment_nil]
      rfl
    have hsplitp := htmlSplitLoop_step_open_skip hcfp' hdcp
    rw [scanHtmlComments_none hsplitp]
    simp
  intro k
  induction k using Nat.strong_induction_on with
  | _ k ih =>
    intro base hk hbp hfse pr hpr
    obtain ⟨fs, hfs⟩ := hfse
    have hfs0 : fencesOk doc p (base + 0) fs = true := by
      rw [Nat.add_zero]; exact hfs
    rcases htmlSplitLoop_fences doc p base fs 0 (by omega) hfs0 with
      ⟨st, e0, tok, heq, hend, hpos, hep, fs2, hfs2⟩ | ⟨i2, heq, hi2p, hfree⟩
    · rw [scanHtmlComments_token heq] at hpr
      rcases List.mem_cons.1 hpr with hhd | htail
      · subst hhd
        dsimp only
        omega
      · rw [if_neg (by omega)] at htail
        obtain ⟨x, hx, rfl⟩ := List.mem_map.1 htail
        rw [drop_drop_add] at hx
        have hrec := ih (p - (base + e0)) (by omega) (base + e0) rfl (by omega)
          ⟨fs2, hfs2⟩ x hx
        dsimp only
        omega
    · have hfree' := noDelimsIn_spec hfree
      have hbt2 : ∀ j, base + i2 ≤ j → j < p → ¬ occursAt tickDelim doc j = true := by
        intro j h1 h2 hx
        rw [(hfree' j h1 h2).1] at hx
        cases hx
      have hbl2 : ∀ j, base + i2 ≤ j → j < p → ¬ occursAt tildeDelim doc j = true := by
        intro j h1 h2 hx
        rw [(hfree' j h1 h2).2] at hx
        cases hx
      have hcf0 := detectCodeFence_at_fence doc p delim other hdelims (base + i2)
        hbt2 hbl2 hAt hi2p
      rw [hclosefi] at hcf0
      simp only [Option.map] at hcf0
      have hcf0' : detectCodeFence ((doc.drop base).drop i2)
          = some (p - (base + i2), none) := by
        rw [drop_drop_add]
        exact hcf0
      by_cases hic : isCompleteComment
          (detectComment (((doc.drop base).drop i2).take (p - (base + i2)))) = true
      · obtain ⟨s, e, hdc⟩ := isCompleteComment_eq_true hic
        have hsplit := heq.trans (htmlSplitLoop_step_open_comment hcf0' hdc)
        rw [scanHtmlComments_token hsplit] at hpr
        have hbounds := detectComment_complete_bounds hdc
        have htl : (((doc.drop base).drop i2).take (p - (base + i2))).length
            ≤ p - (base + i2) := by
          simp [List.length_take]
        rcases List.mem_cons.1 hpr with hhd | htail
        · subst hhd
          have htok := List.length_take_le (e - s) (((doc.drop base).drop i2).drop s)
          dsimp only
          omega
        · by_cases hz : i2 + e = 0
          · rw [if_pos hz] at htail; cases htail
          · rw [if_neg hz] at htail
            obtain ⟨x, hx, rfl⟩ := List.mem_map.1 htail
            rw [drop_drop_add] at hx
            have hfs3 : fencesOk doc p (base + (i2 + e))
                ([] : List (Nat × Nat × List Char)) = true :=
              noDelimsIn_mono hfree (by omega)
            have hrec := ih (p - (base + (i2 + e))) (by omega) (base + (i2 + e)) rfl
              (by omega) ⟨[], hfs3⟩ x hx
            dsimp only
            omega
      · have hic' : isCompleteComment
            (detectComment (((doc.drop base).drop i2).take (p - (base + i2)))) = false :=
          Bool.not_eq_true _ ▸ Bool.of_not_eq_true hic
        have hsplit0 := htmlSplitLoop_step_open_skip hcf0' hic'
        have harg : i2 + (p - (base + i2)) = p - base := by omega
        rw [harg] at hsplit0
        have hsplit := heq.trans hsplit0
        rw [scanHtmlComments_none hsplit] at hpr
        by_cases hz : p - base = 0
        · rw [if_pos hz] at hpr; cases hpr
        · rw [if_neg hz] at hpr
          obtain ⟨x, hx, rfl⟩ := List.mem_map.1 hpr
          rw [drop_drop_add] at hx
          have harg2 : base + (p - base) = p := by omega
          rw [harg2, hscanp] at hx
          cases hx

/-- C2 (counterexample).  In the document "```\n<!-- hi -->\n```\n" the
fenced code block opens on the document's very first line and the comment
`<!-- hi -->` lies strictly inside it, yet the scanner yields that comment
as a live token at offset 4: fence detection searches for the pattern
`"\n```"`, which cannot match a fence opening at offset 0.  Prefixing one
newline (so the same fence opening is preceded by a newline) makes the
scanner skip the comment. -/
theorem c2_first_line_fence_counterexample :
    scanHtmlComments "```\n<!-- hi -->\n```\n".data = [(4, "<!-- hi -->".data)]
      ∧ scanHtmlComments "\n```\n<!-- hi -->\n```\n".data = [] := by
  constructor <;> (rw [scanHtmlComments_eval]; decide)

/-- C2 (amended).  For every document and every fenced code block whose
opening delimiter is preceded by a newline — the scanner's blocks: a
delimiter occurrence at `p` paired with the next occurrence `c` of the same
delimiter (occurrences of the other kind in between are interior content),
preceded from the document start by any properly paired sequence of such
blocks — an HTML comment lying strictly inside the block is never yielded
by the marker scanner: every yielded token either ends at or before `p` or
begins at or after the end of the closing delimiter, so the block's
interior round-trips untouched; and if the opening is never closed, the
scanner yields no token beyond `p`.  (A fence opening at the very start of
the document is not recognized.) -/
theorem c2_fenced_comments_not_yielded
    (doc : List Char) (p : Nat) (delim : List Char)
    (fs : List (Nat × Nat × List Char))
    (hdelim : delim = tickDelim ∨ delim = tildeDelim)
    (hfs : fencesOk doc p 0 fs = true)
    (hAt : occursAt delim doc p = true) :
    (∀ c, occursAt delim doc c = true → p + 4 ≤ c →
        (∀ j, j < c → p + 4 ≤ j → ¬ occursAt delim doc j = true) →
        ∀ pr ∈ scanHtmlComments doc, pr.1 + pr.2.length ≤ p ∨ c + 4 ≤ pr.1)
      ∧ ((∀ j, p + 4 ≤ j → ¬ occursAt delim doc j = true) →
        ∀ pr ∈ scanHtmlComments doc, pr.1 + pr.2.length ≤ p) := by
  have hdoc0 : ∀ pr : Nat × List Char, pr ∈ scanHtmlComments doc →
      pr ∈ scanHtmlComments (doc.drop 0) := by
    intro pr hpr
    rw [List.drop_zero]
    exact hpr
  constructor
  · intro c hc hpc hmid pr hpr
    have hmain : 0 + pr.1 + pr.2.length ≤ p ∨ c + 4 ≤ 0 + pr.1 := by
      rcases hdelim with h | h
      · exact scan_complete_fence_aux doc p c tickDelim tildeDelim (Or.inl ⟨rfl, rfl⟩)
          (h ▸ hAt) (h ▸ hc) hpc (fun j ha hb => h ▸ hmid j hb ha)
          p 0 (by omega) (Nat.zero_le p) ⟨fs, hfs⟩ pr (hdoc0 pr hpr)
      · exact scan_complete_fence_aux doc p c tildeDelim tickDelim (Or.inr ⟨rfl, rfl⟩)
          (h ▸ hAt) (h ▸ hc) hpc (fun j ha hb => h ▸ hmid j hb ha)
          p 0 (by omega) (Nat.zero_le p) ⟨fs, hfs⟩ pr (hdoc0 pr hpr)
    omega
  · intro hnoc pr hpr
    have hmain : 0 + pr.1 + pr.2.length ≤ p := by
      rcases hdelim with h | h
      · exact scan_unclosed_fence_aux doc p tickDelim tildeDelim (Or.inl ⟨rfl, rfl⟩)
          (h ▸ hAt) (fun j hj => h ▸ hnoc j hj)
          p 0 (by omega) (Nat.zero_le p) ⟨fs, hfs⟩ pr (hdoc0 pr hpr)
      · exact scan_unclosed_fence_aux doc p tildeDelim tickDelim (Or.inr ⟨rfl, rfl⟩)
          (h ▸ hAt) (fun j hj => h ▸ hnoc j hj)
          p 0 (by omega) (Nat.zero_le p) ⟨fs, hfs⟩ pr (hdoc0 pr hpr)
    omega

/-- A document with a complete tilde fence, then a complete backtick fence
containing a comment, then a trailing live comment. -/
def docW2 : List Char := "z\n~~~\nq\n~~~\nm\n```\n<!-- x -->\n```\nw <!-- y -->\n".data

theorem c2_fenced_comments_not_yielded_witness :
    (35 : Nat) + ("<!-- y -->".data).length ≤ 13 ∨ 28 + 4 ≤ 35 :=
  (c2_fenced_comments_not_yielded docW2 13 tickDelim [(1, 7, tildeDelim)] (Or.inl rfl)
      (by decide) (by decide)).1
    28 (by decide) (by decide) (by decide) (35, "<!-- y -->".data)
    (by rw [scanHtmlComments_eval]; decide)

/-! ## `applyPullQuotes` (rewriter) -/

/-- The span and presentation fields of a marker that `applyPullQuotes`
consumes; `endIdx = none` models `idxNoEnd` (no observed closing tag). -/
structure PQSpan where
  startIdx : Nat
  endIdx : Option Nat
  fmt : String
  lang : String
  originalTag : String
deriving DecidableEq, Repr

/-- `writeCodeFence`: wrap in a backtick fence, switching to tildes when
the content itself starts a backtick fence. -/
def writeCodeFence (data lang : String) : String :=
  if "```".isPrefixOf data || strContains data "\n```" then
    "\n~~~" ++ lang ++ "\n" ++ data ++ "\n~~~\n"
  else
    "\n```" ++ lang ++ "\n" ++ data ++ "\n```\n"

/-- `strings.Replace(s, "\n", "\n> ", -1)` on the underlying characters. -/
def quoteLines : List Char → List Char
  | [] => []
  | c :: t => if c = '\n' then '\n' :: '>' :: ' ' :: quoteLines t else c :: quoteLines t

/-- The formatted replacement text the rewriter writes for one marker
(the `switch pq.fmt` body of `applyPullQuotes`). -/
def formatExpanded (pq : PQSpan) (exp : Expanded) : String :=
  if pq.fmt = "example" then
    match exp.parts with
    | [p0, p1] =>
      "\n**Code**:" ++ writeCodeFence p0 pq.lang ++ "**Output**:" ++ writeCodeFence p1 ""
    | _ => writeCodeFence exp.str pq.lang
  else if pq.fmt = "codefence" then
    writeCodeFence exp.str pq.lang
  else if pq.fmt = "blockquote" then
    "\n> " ++ String.mk (quoteLines exp.str.data) ++ "\n"
  else
    "\n" ++ exp.str ++ "\n"

/-- The synthesized closing tag for a marker with no observed close. -/
def closeTag (pq : PQSpan) : String :=
  "<!-- /" ++ pq.originalTag ++ "quote -->"

/-- `applyPullQuotes`: stream the document, splicing formatted content into
each marker's span; `readThrough` is the current copy position.  Copying a
section of length `startIdx - readThrough` and the final
seek-and-copy-rest are as in the Go code. -/
def applyPullQuotes : List (PQSpan × Expanded) → Nat → List Char → List Char
  | [], readThrough, doc => doc.drop readThrough
  | (pq, exp) :: rest, readThrough, doc =>
    ((doc.drop readThrough).take (pq.startIdx - readThrough))
      ++ (formatExpanded pq exp).data
      ++ (match pq.endIdx with
          | none => (closeTag pq).data ++ applyPullQuotes rest pq.startIdx doc
          | some e => applyPullQuotes rest e doc)

/-- Absolute slice `doc[a:b]`. -/
def sliceD (doc : List Char) (a b : Nat) : List Char :=
  (doc.take b).drop a

/-- Specification-side rewriter, following the claim's words: bytes outside
the markers' spans are copied verbatim in order as absolute slices of the
input; each marker's content region (between open-tag end and close-tag
start) is replaced by its formatted content; a marker with no observed
close gets the missing closing tag right after the formatted content and
discards nothing. -/
def rewriteSpec (doc : List Char) : List (PQSpan × Expanded) → Nat → List Char
  | [], pos => doc.drop pos
  | (pq, exp) :: rest, pos =>
    sliceD doc pos pq.startIdx
      ++ (formatExpanded pq exp).data
      ++ (match pq.endIdx with
          | none => (closeTag pq).data ++ rewriteSpec doc rest pq.startIdx
          | some e => rewriteSpec doc rest e)

/-- Well-formed spans: in document order, content regions within bounds. -/
def spansOk (doc : List Char) : Nat → List (PQSpan × Expanded) → Bool
  | _, [] => true
  | pos, (pq, _) :: rest =>
    decide (pos ≤ pq.startIdx) && decide (pq.startIdx ≤ doc.length) &&
      (match pq.endIdx with
       | none => spansOk doc pq.startIdx rest
       | some e => decide (pq.startIdx ≤ e) && decide (e ≤ doc.length) && spansOk doc e rest)

/-- C3.  The rewriter's output is byte-identical to the input document
except within each marker's content region: the bytes strictly between a
marker's open-tag end and its close-tag start are replaced by the marker's
formatted resolved content, every byte outside the markers' spans is
copied verbatim in order (as absolute slices of the input), and for a
marker with no observed close the missing closing tag
`<!-- /<kind>quote -->` is written immediately after the formatted
content, discarding nothing. -/
theorem c3_rewriter_splices (doc : List Char) :
    ∀ (pqs : List (PQSpan × Expanded)) (pos : Nat),
    spansOk doc pos pqs = true →
    applyPullQuotes pqs pos doc = rewriteSpec doc pqs pos := by
  intro pqs
  induction pqs with
  | nil => intro pos h; rfl
  | cons pe rest ih =>
    obtain ⟨pq, exp⟩ := pe
    intro pos h
    rw [spansOk] at h
    have hseg : (doc.drop pos).take (pq.startIdx - pos) = sliceD doc pos pq.startIdx := by
      rw [sliceD, List.drop_take]
    cases hend : pq.endIdx with
    | none =>
      rw [hend] at h
      simp only [Bool.and_eq_true, decide_eq_true_eq] at h
      rw [applyPullQuotes, rewriteSpec, hend, hseg]
      dsimp only
      rw [ih pq.startIdx h.2]
    | some e =>
      rw [hend] at h
      simp only [Bool.and_eq_true, decide_eq_true_eq] at h
      rw [applyPullQuotes, rewriteSpec, hend, hseg]
      dsimp only
      rw [ih e h.2.2]

def docW3 : List Char := "A<!-- o -->OLD<!-- /pullquote -->B".data

def pqsW3 : List (PQSpan × Expanded) :=
  [(⟨11, some 14, "", "", "pull"⟩, ⟨"NEW", []⟩)]

theorem c3_rewriter_splices_witness :
    spansOk docW3 0 pqsW3 = true
      ∧ applyPullQuotes pqsW3 0 docW3 = rewriteSpec docW3 pqsW3 0
      ∧ applyPullQuotes pqsW3 0 docW3
          = "A<!-- o -->\nNEW\n<!-- /pullquote -->B".data :=
  ⟨by decide, c3_rewriter_splices docW3 pqsW3 0 (by decide), by decide⟩

/-! ## `tokenizingScanner` (attribute tokenizer) -/

/-- The `unescape` closure of `tokenizingScanner`: drop unescaped quote
characters, resolve backslash escapes. -/
def unescapeAux : Bool → Option Char → List Char → List Char
  | _, _, [] => []
  | escaped, quote, c :: rest =>
    if escaped then c :: unescapeAux false quote rest
    else if c = '\\' then unescapeAux true quote rest
    else
      match quote with
      | some q =>
        if c = q then unescapeAux false none rest
        else c :: unescapeAux false (some q) rest
      | none =>
        if c = '\'' || c = '"' then unescapeAux false (some c) rest
        else c :: unescapeAux false none rest

/-- `unescape` on a raw token. -/
def unescape (l : List Char) : List Char :=
  unescapeAux false none l

/-- Result of scanning one token: a token with the remaining input, or end
of input with the undelivered raw word and whether a quote or escape was
left open. -/
inductive TokRes where
  | tok : List Char → List Char → TokRes
  | eofRes : Bool → List Char → TokRes

/-- The body of the tokenizer's split function after the leading-space
skip: scan until an unquoted space or `=`, tracking quote/escape state
(`acc` holds the raw word seen so far, reversed). -/
def tokWalk : Bool → Option Char → List Char → List Char → TokRes
  | escaped, quote, acc, [] => .eofRes (quote.isSome || escaped) acc.reverse
  | escaped, quote, acc, c :: rest =>
    if escaped then tokWalk false quote (c :: acc) rest
    else if c = '\\' then tokWalk true quote (c :: acc) rest
    else
      match quote with
      | some q => tokWalk false (if c = q then none else some q) (c :: acc) rest
      | none =>
        if c = '\'' || c = '"' then tokWalk false (some c) (c :: acc) rest
        else if c = '=' then
          if acc.isEmpty then .tok ['='] rest
          else .tok (unescape acc.reverse) (c :: rest)
        else if goIsSpace c then .tok (unescape acc.reverse) (c :: rest)
        else tokWalk false none (c :: acc) rest

/-- The tokenizer driver: collect the token stream and whether it ended in
an `unterminated token` error.  Fuel-indexed (every token consumes at
least one character); `tokenizeOptions` supplies sufficient fuel. -/
def scanTokensF : Nat → List Char → List String × Bool
  | 0, _ => ([], false)
  | fuel + 1, data =>
    let rest := data.dropWhile goIsSpace
    match tokWalk false none [] rest with
    | .tok t r =>
      let (ts, err) := scanTokensF fuel r
      (String.mk t :: ts, err)
    | .eofRes unterminated word =>
      if word.isEmpty then ([], false)
      else if unterminated then ([], true)
      else ([String.mk (unescape word)], false)

/-- `tokenizingScanner` over a whole buffer: the token texts, plus whether
scanning ended with the `unterminated token` error. -/
def tokenizeOptions (data : List Char) : List String × Bool :=
  scanTokensF (data.length + 1) data

/-! ## `readPullQuotes` (document reader) -/

/-- Comment tokens of a document: absolute start offset, absolute end
offset (one past `-->`), and the comment text. -/
def commentTokens (doc : List Char) : List (Nat × Nat × List Char) :=
  (scanHtmlCommentsF (doc.length + 1) doc).map fun pr => (pr.1, pr.1 + pr.2.length, pr.2)

/-- One `readPullQuotes` loop iteration over the comment list: open tags
start a marker (offsets: `startIdx` = end of the open comment, `endIdx`
unset), a close tag of the matching kind finalizes the most recent marker
if it is still open, any other close is an `unexpected` error, unrecognized
comments pass through. -/
def readPQLoop (compile : String → Except String Pattern) :
    List PQ → List (Nat × Nat × List Char) → Except String (List PQ)
  | pqs, [] => .ok pqs
  | pqs, (cstart, cend, b) :: rest =>
    let inner := (b.drop 4).take (b.length - 7)
    let (toks, tokErr) := tokenizeOptions inner
    let t := (toks.head?).getD ""
    if t = "pullquote" || t = "goquote" || t = "jsonquote" then
      let tt := if t = "pullquote" then "pull" else if t = "goquote" then "go" else "json"
      let b0 := setOptions compile
        { originalTag := tt, startIdx := cend, endIdx := none } tt toks.tail tokErr
      match b0.err with
      | some e => .error ("parsing pullquote at offset " ++ toString cstart ++ ": " ++ e)
      | none =>
        match validate b0.pq b0.seen with
        | .error e =>
          .error ("validating pullquote at offset " ++ toString cstart ++ ": " ++ e)
        | .ok pq2 => readPQLoop compile (pqs ++ [pq2]) rest
    else if t = "/pullquote" || t = "/goquote" || t = "/jsonquote" then
      match pqs.getLast? with
      | some last =>
        if last.endIdx = none && ("/" ++ last.originalTag).data.isPrefixOf t.data then
          readPQLoop compile (pqs.dropLast ++ [{ last with endIdx := some cstart }]) rest
        else
          .error ("unexpected " ++ t ++ " at offset " ++ toString cstart ++ ": "
            ++ quoteStr (String.mk b))
      | none =>
        .error ("unexpected " ++ t ++ " at offset " ++ toString cstart ++ ": "
          ++ quoteStr (String.mk b))
    else readPQLoop compile pqs rest

/-- `readPullQuotes`: scan a document's comments into its marker list. -/
def readPullQuotes (compile : String → Except String Pattern) (doc : List Char) :
    Except String (List PQ) :=
  readPQLoop compile [] (commentTokens doc)

/-! ## `expandPullQuotes` and the single-document pipeline -/

/-- External collaborators of the pipeline: the regex engine and the
out-of-scope Go/Json extractors, plus the source-file reader. -/
structure Env where
  compile : String → Except String Pattern
  goExpand : List PQ → Except String (List Expanded)
  jsonExpand : List PQ → Except String (List Expanded)
  readFile : String → Except String String

/-- The merge loop after a strategy expander ran: walk the markers in
order, assigning the produced contents to the still-unresolved markers the
strategy picked. -/
def fillResults : List (PQ × Option Expanded) → (PQ → Bool) → List Expanded →
    List (Option Expanded)
  | [], _, _ => []
  | (pq, r) :: rest, pick, vals =>
    if r.isNone && pick pq then
      match vals with
      | v :: vs => some v :: fillResults rest pick vs
      | [] => r :: fillResults rest pick []
    else r :: fillResults rest pick vals

/-- One strategy (`go` or `json`) pass of `expandPullQuotes`. -/
def runStrategy (pqs : List PQ) (results : List (Option Expanded)) (qt : String)
    (expander : List PQ → Except String (List Expanded)) :
    Except String (List (Option Expanded)) :=
  let buf := ((pqs.zip results).filter fun pr => pr.2.isNone && pr.1.quoteType == qt).map
    Prod.fst
  if buf.isEmpty then .ok results
  else
    match expander buf with
    | .error e => .error e
    | .ok found => .ok (fillResults (pqs.zip results) (fun pq => pq.quoteType == qt) found)

/-- A parsed marker's pull-pattern fields (validated pull markers always
carry both patterns; the defaults are never reached). -/
def toPullPat (pq : PQ) : PullPat :=
  ⟨pq.startPat.getD ⟨"", fun _ => false⟩, pq.endPat.getD ⟨"", fun _ => false⟩, pq.endCount⟩

/-- The merge loop after `expandSrcPullQuotes` ran for the group of marker
`i` (same `src`): assign the contents to every marker from `i` on with
that `src`, in order. -/
def mergeSrc : List PQ → List (Option Expanded) → Nat → Nat → String → List Expanded →
    List (Option Expanded)
  | [], _, _, _, _, _ => []
  | _ :: _, [], _, _, _, _ => []
  | pq :: pqrest, r :: rrest, j, i, src, vals =>
    if i ≤ j && pq.src == src then
      match vals with
      | v :: vs => some v :: mergeSrc pqrest rrest (j + 1) i src vs
      | [] => r :: mergeSrc pqrest rrest (j + 1) i src []
    else r :: mergeSrc pqrest rrest (j + 1) i src vals

/-- The per-`src` batching loop of `expandPullQuotes`, iterating over the
marker indices in order. -/
def expandSrcPhase (env : Env) (pqs : List PQ) :
    List Nat → List (Option Expanded) → Except String (List (Option Expanded))
  | [], results => .ok results
  | i :: is, results =>
    match (results.drop i).head? with
    | some none =>
      match pqs.get? i with
      | some pq =>
        let buf := (pqs.drop i).filter fun q => q.src == pq.src
        (match env.readFile pq.src with
         | .error e => .error e
         | .ok content =>
           match expandSrcPullQuotes (buf.map toPullPat) (splitLinesKeepEol content) with
           | .error e => .error e
           | .ok found =>
             expandSrcPhase env pqs is (mergeSrc pqs results 0 i pq.src found))
      | none => expandSrcPhase env pqs is results
    | _ => expandSrcPhase env pqs is results

/-- `expandPullQuotes`: resolve every marker, batching Go-kind and
Json-kind markers per strategy and pull-kind markers per source file. -/
def expandPullQuotes (env : Env) (pqs : List PQ) : Except String (List Expanded) :=
  match runStrategy pqs (pqs.map fun _ => none) "go" env.goExpand with
  | .error e => .error e
  | .ok r1 =>
    match runStrategy pqs r1 "json" env.jsonExpand with
    | .error e => .error e
    | .ok r2 =>
      match expandSrcPhase env pqs (List.range pqs.length) r2 with
      | .error e => .error e
      | .ok r3 => .ok (r3.map fun r => r.getD ⟨"", []⟩)

/-- `filepath.Join` for the simple relative cases exercised here. -/
def joinPath (dir s : String) : String :=
  if dir = "." then s else dir ++ "/" ++ s

/-- A parsed marker's splice fields. -/
def toSpan (pq : PQ) : PQSpan :=
  ⟨pq.startIdx, pq.endIdx, pq.fmt, pq.lang, pq.originalTag⟩

/-- `processFile` on one in-memory document (`fn` its path, `dir` its
directory): read the markers, make `src`/`objPath` paths
directory-relative, resolve, splice, and report the rewritten text when it
differs from the input (`none` = no change detected, nothing persisted). -/
def processDoc (env : Env) (fn dir : String) (doc : String) :
    Except String (Option String) :=
  match readPullQuotes env.compile doc.data with
  | .error e => .error ("readPullQuotes " ++ fn ++ ": " ++ e)
  | .ok pqs =>
    if pqs.length = 0 then .ok none
    else
      let pqs := pqs.map fun pq =>
        let pq := if pq.src ≠ "" then { pq with src := joinPath dir pq.src } else pq
        if pq.objPath ≠ "" && ("./".data.isPrefixOf pq.objPath.data || strContains pq.objPath ".go")
        then { pq with objPath := joinPath dir pq.objPath }
        else pq
      match expandPullQuotes env pqs with
      | .error e => .error ("expandedPullQuotes: " ++ e)
      | .ok expanded =>
        let out := String.mk (applyPullQuotes ((pqs.map toSpan).zip expanded) 0 doc.data)
        if out = doc then .ok none else .ok (some out)

/-- First-run input for the idempotence analysis: one pull marker whose
source region itself contains a close-tag-like comment. -/
def docW4 : String :=
  "x\n<!-- pullquote src=local.go start=AAA end=BBB -->\n<!-- /pullquote -->\ny\n"

/-- The first run's output on `docW4`. -/
def outW4 : String :=
  "x\n<!-- pullquote src=local.go start=AAA end=BBB -->\nAAA\nzzz <!-- /pullquote -->\nBBB\n<!-- /pullquote -->\ny\n"

/-- The source tree for the idempotence analysis. -/
def fsW4 : String → Except String String
  | "d/local.go" => .ok "AAA\nzzz <!-- /pullquote -->\nBBB\n"
  | s => .error ("open " ++ s ++ ": no such file")

/-- Pipeline environment for the idempotence analysis (literal-substring
patterns; the Go/Json strategies are never invoked). -/
def envW4 : Env :=
  ⟨litCompile, fun _ => .error "goquote unsupported",
    fun _ => .error "jsonquote unsupported", fsW4⟩

/-- C4.  The pipeline is not idempotent: on `docW4` every marker resolves
successfully and the first run rewrites the document to `outW4`, but
running the pipeline on `outW4` (same source files) fails outright — the
close-tag-like comment spliced into the content region closes the marker
early, so the real closing tag is rejected as `unexpected /pullquote` —
instead of reproducing `outW4` as a fixed point. -/
theorem c4_second_run_rejects_own_output :
    processDoc envW4 "f.md" "d" docW4 = .ok (some outW4) ∧
    processDoc envW4 "f.md" "d" outW4 =
      .error "readPullQuotes f.md: unexpected /pullquote at offset 84: \"<!-- /pullquote -->\"" :=
  ⟨rfl, rfl⟩

theorem c9_kind_format_defaults_witness :
    validate { originalTag := "go", quoteType := "go", objPath := ".#ExampleFooBar" }
        ["gopath"]
      = .ok { originalTag := "go", quoteType := "go", objPath := ".#ExampleFooBar",
              fmt := "example", lang := "go" }
    ∧ ({ originalTag := "go", quoteType := "go", objPath := ".#ExampleFooBar",
         fmt := "example", lang := "go" } : PQ).fmt
        = (if strContains ".#ExampleFooBar" "#Example" then "example" else "codefence") := by
  refine ⟨by rfl, ?_⟩
  exact ((c9_kind_format_defaults
    { originalTag := "go", quoteType := "go", objPath := ".#ExampleFooBar" }
    { originalTag := "go", quoteType := "go", objPath := ".#ExampleFooBar",
      fmt := "example", lang := "go" }
    ["gopath"] (by rfl)).1 rfl rfl).1

/-! ## `processFiles` (multi-document aggregation) -/

/-- Outcome of `processFile` for one document, as delivered on the result
channel: the document path, the temp file holding the rewritten text (`""`
when nothing changed), and the error if any (`canceled` models a
`context.Canceled` error, which per-file reporting ignores). -/
structure FileResult where
  fn : String
  tempFn : String
  err : Option (Option String)
deriving DecidableEq, Repr

/-- A `context.Canceled` result error. -/
def FileResult.canceled (r : FileResult) : Bool :=
  r.err = some none

/-- Aggregation state of the `processFiles` result loop: the reported
error and its document, the failure count, and the pending renames. -/
structure ProcState where
  err : Option String
  errFn : String
  otherErrs : Nat
  moves : List (String × String)
deriving DecidableEq, Repr

/-- `processFiles` before any result arrives. -/
def initProcState : ProcState := ⟨none, "", 0, []⟩

/-- Go `<` on strings: byte-wise lexicographic comparison. -/
def goStrLtL : List Char → List Char → Bool
  | [], [] => false
  | [], _ :: _ => true
  | _ :: _, [] => false
  | a :: as, b :: bs => if a < b then true else if b < a then false else goStrLtL as bs

/-- Go `<` on strings. -/
def goStrLt (a b : String) : Bool := goStrLtL a.data b.data

/-- One iteration of the result loop's switch: a success queues its rename
while no error has been seen; a non-canceled failure is counted and
replaces the reported error when it is the first or its path sorts
strictly below the current one; a canceled failure is ignored. -/
def procStep (s : ProcState) (res : FileResult) : ProcState :=
  match res.err with
  | none =>
    if s.err = none ∧ res.tempFn ≠ "" then
      { s with moves := s.moves ++ [(res.tempFn, res.fn)] }
    else s
  | some none => s
  | some (some e) =>
    if s.err = none ∨ goStrLt res.fn s.errFn then
      { err := some e, errFn := res.fn, otherErrs := s.otherErrs + 1, moves := s.moves }
    else { s with otherErrs := s.otherErrs + 1 }

/-- The epilogue of `processFiles`: surface the aggregate error, or the
`files changed` check-mode error, or the renames to perform. -/
def procFinish (checkMode : Bool) (s : ProcState) : Except String (List (String × String)) :=
  match s.err with
  | some e =>
    if s.otherErrs > 0 then
      .error (s.errFn ++ " failed (along with " ++ toString s.otherErrs ++ " others): " ++ e)
    else .error (s.errFn ++ " failed: " ++ e)
  | none =>
    if checkMode ∧ s.moves ≠ [] then .error "files changed"
    else .ok s.moves

/-- `processFiles` over a completed arrival order of per-document results:
fold the result loop, then run the epilogue.  An `.ok` value lists the
renames performed (temp file, target file) in arrival order; any `.error`
means no target file is renamed. -/
def processFilesModel (checkMode : Bool) (results : List FileResult) :
    Except String (List (String × String)) :=
  procFinish checkMode (results.foldl procStep initProcState)

/-- The non-canceled failures among the results, in arrival order, as
(document, message) pairs. -/
def failuresOf (results : List FileResult) : List (String × String) :=
  results.filterMap fun r =>
    match r.err with
    | some (some e) => some (r.fn, e)
    | _ => none

/-- The reported-failure selection rule, replayed over a failure list:
keep the incumbent unless the newcomer's path sorts strictly below it. -/
def chooseErr : Option (String × String) → List (String × String) → Option (String × String)
  | o, [] => o
  | none, f :: fs => chooseErr (some f) fs
  | some b, f :: fs => chooseErr (some (if goStrLt f.1 b.1 then f else b)) fs

/-- The failure `processFiles` reports: the one with the lexicographically
smallest path, earliest arrival winning ties. -/
def minFailure (fs : List (String × String)) : Option (String × String) :=
  chooseErr none fs

/-- The reported (document, message) pair of an aggregation state. -/
def errOf (s : ProcState) : Option (String × String) :=
  match s.err with
  | some e => some (s.errFn, e)
  | none => none

theorem failuresOf_cons (r : FileResult) (rs : List FileResult) :
    failuresOf (r :: rs) = failuresOf [r] ++ failuresOf rs := by
  rcases r with ⟨fn, tfn, err⟩
  rcases err with _ | err
  · simp [failuresOf]
  · rcases err with _ | e <;> simp [failuresOf]

theorem chooseErr_nil (o : Option (String × String)) : chooseErr o [] = o := by
  cases o <;> rfl

theorem chooseErr_append (xs : List (String × String)) :
    ∀ (o : Option (String × String)) (ys : List (String × String)),
      chooseErr o (xs ++ ys) = chooseErr (chooseErr o xs) ys := by
  induction xs with
  | nil => intro o ys; rw [List.nil_append, chooseErr_nil]
  | cons f fs ih =>
    intro o ys
    rcases o with _ | b
    · simpa [chooseErr] using ih (some f) ys
    · simpa [chooseErr] using ih (some (if goStrLt f.1 b.1 then f else b)) ys

theorem chooseErr_some_ne_none (fs : List (String × String)) :
    ∀ b : String × String, chooseErr (some b) fs ≠ none := by
  induction fs with
  | nil => intro b h; exact Option.noConfusion h
  | cons f fs ih => intro b; exact ih _

theorem errOf_procStep (s : ProcState) (r : FileResult) :
    errOf (procStep s r) = chooseErr (errOf s) (failuresOf [r]) := by
  rcases s with ⟨serr, sfn, so, sm⟩
  rcases r with ⟨fn, tfn, err⟩
  rcases err with _ | err
  · simp only [procStep]
    split <;> rcases serr with _ | b <;> rfl
  · rcases err with _ | e
    · rcases serr with _ | b <;> rfl
    · simp only [procStep]
      rcases serr with _ | b
    -- first failure seen: it is reported
      · rw [if_pos (Or.inl rfl)]; rfl
      · by_cases hlt : goStrLt fn sfn = true
        · rw [if_pos (Or.inr hlt)]
          show some (fn, e) = some (if goStrLt fn sfn then (fn, e) else (sfn, b))
          rw [if_pos hlt]
        · rw [if_neg (by simp [hlt])]
          show some (sfn, b) = some (if goStrLt fn sfn then (fn, e) else (sfn, b))
          rw [if_neg hlt]

theorem otherErrs_procStep (s : ProcState) (r : FileResult) :
    (procStep s r).otherErrs = s.otherErrs + (failuresOf [r]).length := by
  rcases s with ⟨serr, sfn, so, sm⟩
  rcases r with ⟨fn, tfn, err⟩
  rcases err with _ | err
  · simp only [procStep]
    split <;> rfl
  · rcases err with _ | e
    · rfl
    · simp only [procStep]
      split <;> rfl

theorem foldl_procStep_errOf :
    ∀ (rs : List FileResult) (s : ProcState),
      errOf (rs.foldl procStep s) = chooseErr (errOf s) (failuresOf rs)
  | [], s => by rw [List.foldl_nil]; exact (chooseErr_nil (errOf s)).symm
  | r :: rs, s => by
    rw [List.foldl_cons, foldl_procStep_errOf rs, errOf_procStep, failuresOf_cons r rs,
      chooseErr_append]

theorem foldl_procStep_otherErrs :
    ∀ (rs : List FileResult) (s : ProcState),
      (rs.foldl procStep s).otherErrs = s.otherErrs + (failuresOf rs).length
  | [], _ => rfl
  | r :: rs, s => by
    rw [List.foldl_cons, foldl_procStep_otherErrs rs, otherErrs_procStep, failuresOf_cons r rs,
      List.length_append]
    omega

theorem errOf_eq_some (s : ProcState) (fn e : String) (h : errOf s = some (fn, e)) :
    s.err = some e ∧ s.errFn = fn := by
  rcases s with ⟨serr, sfn, so, sm⟩
  rcases serr with _ | b
  · exact Option.noConfusion h
  · have h2 := Prod.ext_iff.mp (Option.some.inj h)
    exact ⟨congrArg some h2.2, h2.1⟩

/-- C6.  All-or-nothing persistence: as soon as some document's result
carries a non-canceled failure, `processFiles` ends in an error — the
rename loop is never reached, so zero target files are mutated — while
every sibling result is still consumed: the final failure count equals the
total number of failing documents in the run. -/
theorem c6_failure_blocks_all_renames (checkMode : Bool) (results : List FileResult)
    (h : failuresOf results ≠ []) :
    (processFilesModel checkMode results).isOk = false ∧
    (results.foldl procStep initProcState).otherErrs = (failuresOf results).length := by
  constructor
  · have herr := foldl_procStep_errOf results initProcState
    rcases hfs : failuresOf results with _ | ⟨f, fs⟩
    · exact absurd hfs h
    · rw [hfs] at herr
      rcases hx : chooseErr (some f) fs with _ | ⟨xf, xe⟩
      · exact absurd hx (chooseErr_some_ne_none fs f)
      · have herr2 : errOf (results.foldl procStep initProcState) = some (xf, xe) := by
          rw [herr]; exact hx
        obtain ⟨h1, h2⟩ := errOf_eq_some _ xf xe herr2
        show (procFinish checkMode (results.foldl procStep initProcState)).isOk = false
        rcases hsf : results.foldl procStep initProcState with ⟨serr, sfn, so, sm⟩
        rw [hsf] at h1
        have h1' : serr = some xe := h1
        subst h1'
        dsimp only [procFinish]
        split <;> rfl
  · have h0 := foldl_procStep_otherErrs results initProcState
    rwa [show initProcState.otherErrs = 0 from rfl, Nat.zero_add] at h0

/-- A run containing one success with a pending rename, one failing
document and one canceled result. -/
def resultsW6 : List FileResult :=
  [⟨"b.md", "tmp1", none⟩, ⟨"a.md", "", some (some "boom")⟩, ⟨"c.md", "", some none⟩]

theorem c6_failure_blocks_all_renames_witness :
    failuresOf resultsW6 ≠ [] ∧
      ((processFilesModel true resultsW6).isOk = false ∧
        (resultsW6.foldl procStep initProcState).otherErrs = (failuresOf resultsW6).length) :=
  ⟨by decide, c6_failure_blocks_all_renames true resultsW6 (by decide)⟩

/-- C7 counterexample.  A run with exactly one failing document reports
`(along with 1 others)`: the `otherErrs` counter is incremented for every
non-canceled failure, the reported one included, so the reported document
is counted among the "others". -/
theorem c7_single_failure_counted_as_other :
    processFilesModel false [⟨"a.md", "", some (some "boom")⟩] =
      .error "a.md failed (along with 1 others): boom" := rfl

/-- C7 (amended).  The aggregate error reports the failing document whose
path sorts lexicographically smallest (earliest arrival winning ties) and
counts the total number of failing documents in the run — the reported
document included. -/
theorem c7_min_path_failure_reported (checkMode : Bool) (results : List FileResult)
    (fn e : String) (h : minFailure (failuresOf results) = some (fn, e)) :
    processFilesModel checkMode results =
      .error (fn ++ " failed (along with " ++ toString (failuresOf results).length
        ++ " others): " ++ e) := by
  have herr := foldl_procStep_errOf results initProcState
  have hcnt2 : (results.foldl procStep initProcState).otherErrs
      = (failuresOf results).length := by
    have h0 := foldl_procStep_otherErrs results initProcState
    rwa [show initProcState.otherErrs = 0 from rfl, Nat.zero_add] at h0
  have herr2 : errOf (results.foldl procStep initProcState) = some (fn, e) := by
    rw [herr]; exact h
  obtain ⟨h1, h2⟩ := errOf_eq_some _ fn e herr2
  have hlen : 0 < (failuresOf results).length := by
    rcases hfs : failuresOf results with _ | ⟨f, fs⟩
    · rw [hfs] at h
      rw [show minFailure ([] : List (String × String)) = none from chooseErr_nil none] at h
      exact Option.noConfusion h
    · simp
  show procFinish checkMode (results.foldl procStep initProcState) = _
  rcases hsf : results.foldl procStep initProcState with ⟨serr, sfn, so, sm⟩
  rw [hsf] at h1 h2 hcnt2
  have h1' : serr = some e := h1
  have h2' : sfn = fn := h2
  have h3' : so = (failuresOf results).length := hcnt2
  subst h1' h2' h3'
  dsimp only [procFinish]
  rw [if_pos hlen]

/-- Two failing documents arriving in reverse path order. -/
def resultsW7 : List FileResult :=
  [⟨"b.md", "", some (some "bang")⟩, ⟨"a.md", "", some (some "boom")⟩]

theorem c7_min_path_failure_reported_witness :
    minFailure (failuresOf resultsW7) = some ("a.md", "boom") ∧
      processFilesModel false resultsW7 =
        .error ("a.md" ++ " failed (along with " ++ toString (failuresOf resultsW7).length
          ++ " others): " ++ "boom") :=
  ⟨by decide, c7_min_path_failure_reported false resultsW7 "a.md" "boom" (by decide)⟩

end Pullquote
